import Mathlib

/-! Squeeze1: the compressor core of `Source/PluginProcessor.h` and `PluginProcessor.cpp`.

A shallow embedding of `Squeeze1AudioProcessor`:

* `calculateAttackCoefficient`, `calculateReleaseCoefficient` (PluginProcessor.h, 65–75);
* `prepareToPlay` (PluginProcessor.cpp, 127–133);
* `processBlock` (PluginProcessor.cpp, 167–233), split along the source into the
  parameter snapshot (180–192), the body of the inner loop (`sampleStep`, 205–226),
  the inner loop over one channel (`processChannel`, 203–227), the outer loop over
  the channels (`processChannels`, 199–228) and the two visualization copies.

Arithmetic.  The C++ code computes in `float` (and `double` for the sample rate).
The embedding has two layers.

* Exact arithmetic: `sampleStep`, `processChannel`, `processBlock` idealise every
  floating-point operation as the exact operation of a linearly ordered field `K` (the
  sample loop is generic in `K` and so runs on `ℚ`; the dB conversion and the
  coefficient mapper need `exp` and live over `ℝ`).  The statements proved on this
  layer are about which branch runs, what is copied where, signs and bounds; they take
  the two coefficients as given.
* IEEE arithmetic: `toFloat`, `toDouble`, `sampleStepFloat`, `processChannelFloat`,
  `calculateAttackCoefficientFloat`, `calculateReleaseCoefficientFloat` evaluate the
  same source expressions with the machine's roundings.  The statements about the
  values the envelope takes over a run of samples, and about the values the coefficient
  mapper returns, are proved on this layer, where rounding decides them.
-/

namespace Squeeze1

/-! ## JUCE library pieces used by the processor -/

/-- `juce::jmax (a, b)`, i.e. `a < b ? b : a`. -/
def jmax {K : Type} [LinearOrderedField K] (a b : K) : K :=
  if a < b then b else a

/-- Modelled from the spec: `juce::Decibels::decibelsToGain` is JUCE library code, not
part of the repository sources; §4.4 describes it as the "standard `10^(dB/20)`
conversion".  (The library version additionally returns 0 at or below −100 dB, a
value none of the plugin's parameter ranges reaches.) -/
noncomputable def decibelsToGain (decibels : ℝ) : ℝ :=
  (10 : ℝ) ^ (decibels / 20)

/-- A `juce::AudioBuffer<float>`: the list of its channels, each the list of its
`getNumSamples` samples (in a buffer the host hands over all channels have that one
length). -/
abbrev AudioBuffer (K : Type) := List (List K)

/-- `AudioBuffer::getNumChannels`. -/
def AudioBuffer.getNumChannels {K : Type} (b : AudioBuffer K) : Nat :=
  b.length

/-- `AudioBuffer::getNumSamples`: the common length of the channels. -/
def AudioBuffer.getNumSamples {K : Type} (b : AudioBuffer K) : Nat :=
  match b with
  | [] => 0
  | ch :: _ => ch.length

/-- `dest.copyFrom (0, 0, source, 0, 0, numSamples)`, the only form the processor
calls: copy the first `numSamples` samples of channel 0 of `source` over the start of
channel 0 of `dest`.  With `numSamples = 0` nothing is touched.  Otherwise both
channels must exist and hold at least `numSamples` samples; where they do not the C++
call reads or writes out of bounds, which is `none` here. -/
def AudioBuffer.copyFrom {K : Type} (dest source : AudioBuffer K) (numSamples : Nat) :
    Option (AudioBuffer K) :=
  if numSamples = 0 then some dest
  else
    match dest, source with
    | d :: others, s :: _ =>
        if numSamples ≤ d.length ∧ numSamples ≤ s.length then
          some ((s.take numSamples ++ d.drop numSamples) :: others)
        else none
    | _, _ => none

/-- `AudioBuffer::setSize (newNumChannels, newNumSamples)` with its default flags: a
buffer that already has the requested shape is left as it is; otherwise the storage is
reallocated and holds whatever the fresh memory holds, which is the parameter `fresh`
(channel index, sample index ↦ value). -/
def AudioBuffer.setSize {K : Type} (b : AudioBuffer K) (newNumChannels newNumSamples : Nat)
    (fresh : Nat → Nat → K) : AudioBuffer K :=
  if b.getNumChannels = newNumChannels ∧ b.getNumSamples = newNumSamples then b
  else (List.range newNumChannels).map fun c => (List.range newNumSamples).map fun i => fresh c i

/-- The loop of lines 175–177, `buffer.clear (i, 0, buffer.getNumSamples ())` for every
channel index `i` with `totalNumInputChannels ≤ i < totalNumOutputChannels`; `i` is the
index of the first channel of the list. -/
def clearUnusedChannels {K : Type} [Zero K] (totalNumInputChannels totalNumOutputChannels : Nat) :
    Nat → AudioBuffer K → AudioBuffer K
  | _, [] => []
  | i, channelData :: rest =>
      (if totalNumInputChannels ≤ i ∧ i < totalNumOutputChannels
        then List.replicate channelData.length 0 else channelData)
        :: clearUnusedChannels totalNumInputChannels totalNumOutputChannels (i + 1) rest

/-! ## The coefficient mapper (PluginProcessor.h, 65–75) -/

/-- `calculateAttackCoefficient (float attackMs, double sampleRate)`, the expression in
exact real arithmetic; it feeds the exact `snapshot`.  What the machine returns, roundings,
zero divisor and overflow included, is `calculateAttackCoefficientFloat` below. -/
noncomputable def calculateAttackCoefficient (attackMs sampleRate : ℝ) : ℝ :=
  let attackTimeInSeconds := attackMs / 1000
  1 - Real.exp (-1 / (attackTimeInSeconds * sampleRate))

/-- `calculateReleaseCoefficient (float releaseMs, double sampleRate)`, the expression in
exact real arithmetic; what the machine returns is `calculateReleaseCoefficientFloat`
below. -/
noncomputable def calculateReleaseCoefficient (releaseMs sampleRate : ℝ) : ℝ :=
  let releaseTimeInSeconds := releaseMs / 1000
  1 - Real.exp (-1 / (releaseTimeInSeconds * sampleRate))

/-! ## The per-block parameter snapshot (PluginProcessor.cpp, 180–192) -/

/-- The raw values of the five `apvts` parameters, as `getRawParameterValue` loads them. -/
structure Parameters where
  GAIN : ℝ
  THRESHOLD : ℝ
  RATIO : ℝ
  ATTACK : ℝ
  RELEASE : ℝ

/-- The locals that `processBlock` derives from the parameters before its loops. -/
structure Snapshot (K : Type) where
  linearGain : K
  linearThreshold : K
  ratio : K
  attackCoeff : K
  releaseCoeff : K

/-- Lines 180–192 of `processBlock`: read the parameters once and convert them. -/
noncomputable def snapshot (apvts : Parameters) (sampleRate : ℝ) : Snapshot ℝ :=
  let gainDb := apvts.GAIN
  let linearGain := decibelsToGain gainDb
  let thresholdDb := apvts.THRESHOLD
  let linearThreshold := decibelsToGain thresholdDb
  let ratio := apvts.RATIO
  let attackMs := apvts.ATTACK
  let attackCoeff := calculateAttackCoefficient attackMs sampleRate
  let releaseMs := apvts.RELEASE
  let releaseCoeff := calculateReleaseCoefficient releaseMs sampleRate
  { linearGain := linearGain, linearThreshold := linearThreshold, ratio := ratio,
    attackCoeff := attackCoeff, releaseCoeff := releaseCoeff }

/-! ## The sample loop (PluginProcessor.cpp, 199–228) -/

section Loop

variable {K : Type} [LinearOrderedField K]

/-- Lines 208–224: the `if`/`else` of the loop body.  Takes the envelope and the sample
value, returns the new envelope and the sample value as it stands before the gain stage. -/
def compressSample (p : Snapshot K) (envelope sampleValue : K) : K × K :=
  if |sampleValue| > p.linearThreshold then
    let excess := |sampleValue| - p.linearThreshold
    let targetEnvelope := excess / p.ratio
    let envelope1 := envelope + p.attackCoeff * (targetEnvelope - envelope)
    let compressedSample := p.linearThreshold + envelope1
    (envelope1, if sampleValue > 0 then compressedSample else -compressedSample)
  else
    let envelope1 := envelope - p.releaseCoeff * envelope
    (jmax envelope1 0, sampleValue)

/-- Lines 205–226: one pass of the inner loop body, the `if`/`else` followed by
`sampleValue *= linearGain`.  Returns the new envelope and the sample written back. -/
def sampleStep (p : Snapshot K) (envelope sampleValue : K) : K × K :=
  let r := compressSample p envelope sampleValue
  (r.1, r.2 * p.linearGain)

/-- Lines 203–227: the inner loop over the samples of one channel, threading the
envelope.  Returns the final envelope and the processed channel. -/
def processChannel (p : Snapshot K) : K → List K → K × List K
  | envelope, [] => (envelope, [])
  | envelope, sampleValue :: rest =>
      let s := sampleStep p envelope sampleValue
      let r := processChannel p s.1 rest
      (r.1, s.2 :: r.2)

/-- Lines 199–228: the outer loop over the channels of the block, in channel order,
with the one `envelope` member carried from each channel into the next. -/
def processChannels (p : Snapshot K) : K → AudioBuffer K → K × AudioBuffer K
  | envelope, [] => (envelope, [])
  | envelope, channelData :: rest =>
      let c := processChannel p envelope channelData
      let r := processChannels p c.1 rest
      (r.1, c.2 :: r.2)

/-! ## The processor object -/

/-- The state of a `Squeeze1AudioProcessor` that the core reads and writes: the bus
channel counts of the `AudioProcessor` base, the two visualization buffers and the
envelope member. -/
structure Processor (K : Type) where
  totalNumInputChannels : Nat
  totalNumOutputChannels : Nat
  inputBuffer : AudioBuffer K
  outputBuffer : AudioBuffer K
  envelope : K

/-- The constructor (PluginProcessor.cpp, 13–27): a stereo input and a stereo output
bus, default-constructed (empty) visualization buffers, `envelope (0.0f)`. -/
def Squeeze1AudioProcessor : Processor K :=
  { totalNumInputChannels := 2, totalNumOutputChannels := 2,
    inputBuffer := [], outputBuffer := [], envelope := 0 }

/-- `prepareToPlay (sampleRate, samplesPerBlock)` (PluginProcessor.cpp, 127–133): both
visualization buffers are set to one channel of `samplesPerBlock` samples.  `freshIn`
and `freshOut` stand for the contents of newly allocated storage. -/
def prepareToPlay (st : Processor K) (_sampleRate : K) (samplesPerBlock : Nat)
    (freshIn freshOut : Nat → Nat → K) : Processor K :=
  { st with
    inputBuffer := st.inputBuffer.setSize 1 samplesPerBlock freshIn
    outputBuffer := st.outputBuffer.setSize 1 samplesPerBlock freshOut }

/-- `processBlock` (PluginProcessor.cpp, 167–233) after its parameter snapshot `p`:
clear the unused output channels, copy channel 0 into `inputBuffer`, run the sample
loop over every channel, copy channel 0 of the result into `outputBuffer`.  Returns the
new processor state and the block as left in place, or `none` when a copy is out of
bounds. -/
def processBlockWith (p : Snapshot K) (st : Processor K) (buffer : AudioBuffer K) :
    Option (Processor K × AudioBuffer K) :=
  let buffer1 := clearUnusedChannels st.totalNumInputChannels st.totalNumOutputChannels 0 buffer
  match st.inputBuffer.copyFrom buffer1 buffer1.getNumSamples with
  | none => none
  | some inputBuffer1 =>
      let r := processChannels p st.envelope buffer1
      match st.outputBuffer.copyFrom r.2 r.2.getNumSamples with
      | none => none
      | some outputBuffer1 =>
          some ({ st with inputBuffer := inputBuffer1, outputBuffer := outputBuffer1,
                          envelope := r.1 }, r.2)

end Loop

/-- `processBlock` (PluginProcessor.cpp, 167–233) with the parameter values `apvts`
and the host sample rate `sampleRate` (`getSampleRate ()`). -/
noncomputable def processBlock (apvts : Parameters) (sampleRate : ℝ) (st : Processor ℝ)
    (buffer : AudioBuffer ℝ) : Option (Processor ℝ × AudioBuffer ℝ) :=
  processBlockWith (snapshot apvts sampleRate) st buffer

/-- The envelope member after a sequence of `processBlock` calls, each with its own
parameter snapshot and block: the sample loop of each call starts from the envelope the
previous call left, and nothing else writes the member. -/
def envelopeAfterBlocks {K : Type} [LinearOrderedField K] :
    K → List (Snapshot K × AudioBuffer K) → K
  | envelope, [] => envelope
  | envelope, (p, buffer) :: rest =>
      envelopeAfterBlocks (processChannels p envelope buffer).1 rest

/-! ## IEEE arithmetic

The loops above compute in exact arithmetic.  The definitions below evaluate the same
source expressions the way the machine does: every `float` operation rounds to a 24-bit
significand, every `double` operation to a 53-bit one, ties to even, and under
`juce::ScopedNoDenormals` (line 169) a result below the smallest normal number is
flushed to zero.  Values are the finite numbers; where the C++ result is an infinity the
mapper below returns `none`, and the loop is meant for samples and parameters far from
overflow. -/

section Ieee

variable {K : Type} [LinearOrderedField K] [FloorRing K]

/-- Round to the nearest integer, ties to the even one (IEEE roundTiesToEven). -/
def roundHalfEven (q : K) : ℤ :=
  if q - ⌊q⌋ < 1 / 2 then ⌊q⌋
  else if 1 / 2 < q - ⌊q⌋ then ⌊q⌋ + 1
  else if ⌊q⌋ % 2 = 0 then ⌊q⌋ else ⌊q⌋ + 1

/-- The nearest number to `x > 0` with a significand of `prec` bits, ties to even: with
`2^e ≤ x < 2^(e+1)` the spacing is `2^(e - (prec - 1))`. -/
def roundMagnitude (prec : ℕ) (x : K) : K :=
  let ulp : K := 2 ^ (Int.log 2 x - ((prec : ℤ) - 1))
  (roundHalfEven (x / ulp) : K) * ulp

/-- Flush-to-zero: a rounded magnitude below the smallest normal number `2^minExp`
becomes 0. -/
def flushToZero (minExp : ℤ) (r : K) : K :=
  if r < 2 ^ minExp then 0 else r

/-- The result of an IEEE operation whose exact value is `x`: rounded to `prec` bits,
sign kept, flushed to zero below `2^minExp`. -/
def roundIeee (prec : ℕ) (minExp : ℤ) (x : K) : K :=
  if 0 < x then flushToZero minExp (roundMagnitude prec x)
  else if x < 0 then -flushToZero minExp (roundMagnitude prec (-x))
  else 0

/-- The `float` (binary32) result of an operation with exact value `x`. -/
def toFloat (x : K) : K := roundIeee 24 (-126) x

/-- The `double` (binary64) result of an operation with exact value `x`. -/
def toDouble (x : K) : K := roundIeee 53 (-1022) x

/-- Lines 208–224 in `float` arithmetic: `compressSample` with every subtraction,
division, multiplication and addition rounded by `toFloat`. -/
def compressSampleFloat (p : Snapshot K) (envelope sampleValue : K) : K × K :=
  if |sampleValue| > p.linearThreshold then
    let excess := toFloat (|sampleValue| - p.linearThreshold)
    let targetEnvelope := toFloat (excess / p.ratio)
    let envelope1 :=
      toFloat (envelope + toFloat (p.attackCoeff * toFloat (targetEnvelope - envelope)))
    let compressedSample := toFloat (p.linearThreshold + envelope1)
    (envelope1, if sampleValue > 0 then compressedSample else -compressedSample)
  else
    let envelope1 := toFloat (envelope - toFloat (p.releaseCoeff * envelope))
    (jmax envelope1 0, sampleValue)

/-- Lines 205–226 in `float` arithmetic: the `if`/`else`, then `sampleValue *= linearGain`. -/
def sampleStepFloat (p : Snapshot K) (envelope sampleValue : K) : K × K :=
  let r := compressSampleFloat p envelope sampleValue
  (r.1, toFloat (r.2 * p.linearGain))

/-- Lines 203–227 in `float` arithmetic: the inner loop over one channel. -/
def processChannelFloat (p : Snapshot K) : K → List K → K × List K
  | envelope, [] => (envelope, [])
  | envelope, sampleValue :: rest =>
      let s := sampleStepFloat p envelope sampleValue
      let r := processChannelFloat p s.1 rest
      (r.1, s.2 :: r.2)

end Ieee

/-- Modelled from the spec: `std::exp` on a `double` is C library code; it is taken as
the exponential function rounded to the nearest `double`. -/
noncomputable def stdExp (x : ℝ) : ℝ :=
  toDouble (Real.exp x)

/-- `calculateAttackCoefficient (float attackMs, double sampleRate)` as the machine
evaluates it: `attackMs / 1000.0f` in `float`; the product with `sampleRate`, the
quotient `-1.0f / …`, `std::exp` and `1.0f - …` in `double`; the result converted to
`float`.  The value is the finite result, `none` when the result is an infinity.
A zero divisor is `+0` when `attackMs` and `sampleRate` have the same sign (then the
quotient is `-∞`, its exponential 0 and the result 1) and `-0` otherwise (quotient `+∞`,
result `-∞`).  A product that overflows gives a zero quotient, exponential 1, result 0.
An exponential that overflows, or a result too large for a `float`, gives `-∞`. -/
noncomputable def calculateAttackCoefficientFloat (attackMs sampleRate : ℝ) : Option ℝ :=
  let attackTimeInSeconds := toFloat (attackMs / 1000)
  let divisor := toDouble (attackTimeInSeconds * sampleRate)
  if divisor = 0 then
    if (attackMs < 0 ↔ sampleRate < 0) then some 1 else none
  else if 2 ^ 1024 ≤ |divisor| then some 0
  else
    let e := stdExp (toDouble (-1 / divisor))
    if 2 ^ 1024 ≤ e then none
    else
      let r := toFloat (toDouble (1 - e))
      if 2 ^ 128 ≤ |r| then none else some r

/-- `calculateReleaseCoefficient (float releaseMs, double sampleRate)` as the machine
evaluates it; the same operations as `calculateAttackCoefficientFloat`. -/
noncomputable def calculateReleaseCoefficientFloat (releaseMs sampleRate : ℝ) : Option ℝ :=
  let releaseTimeInSeconds := toFloat (releaseMs / 1000)
  let divisor := toDouble (releaseTimeInSeconds * sampleRate)
  if divisor = 0 then
    if (releaseMs < 0 ↔ sampleRate < 0) then some 1 else none
  else if 2 ^ 1024 ≤ |divisor| then some 0
  else
    let e := stdExp (toDouble (-1 / divisor))
    if 2 ^ 1024 ≤ e then none
    else
      let r := toFloat (toDouble (1 - e))
      if 2 ^ 128 ≤ |r| then none else some r

/-! ## Helper lemmas -/

section Buffers

theorem copyFrom_single {K : Type} (d src : List K) (h : src.length ≤ d.length) :
    AudioBuffer.copyFrom [d] [src] src.length = some [src ++ d.drop src.length] := by
  unfold AudioBuffer.copyFrom
  by_cases h0 : src.length = 0
  · have : src = [] := List.length_eq_zero.mp h0
    subst this
    simp
  · simp [h0, h]

end Buffers

section Lemmas

variable {K : Type} [LinearOrderedField K]

theorem jmax_eq_max (a b : K) : jmax a b = max a b := by
  unfold jmax
  split_ifs with h
  · exact (max_eq_right h.le).symm
  · exact (max_eq_left (not_lt.mp h)).symm

theorem compressSample_attack (p : Snapshot K) (e x : K) (h : |x| > p.linearThreshold) :
    compressSample p e x =
      (e + p.attackCoeff * ((|x| - p.linearThreshold) / p.ratio - e),
       if x > 0 then p.linearThreshold + (e + p.attackCoeff * ((|x| - p.linearThreshold) / p.ratio - e))
       else -(p.linearThreshold + (e + p.attackCoeff * ((|x| - p.linearThreshold) / p.ratio - e)))) := by
  simp only [compressSample, if_pos h]

theorem compressSample_release (p : Snapshot K) (e x : K) (h : |x| ≤ p.linearThreshold) :
    compressSample p e x = (max (e - p.releaseCoeff * e) 0, x) := by
  simp only [compressSample, if_neg (not_lt.mpr h), jmax_eq_max]

theorem processChannel_append (p : Snapshot K) (e : K) (xs ys : List K) :
    processChannel p e (xs ++ ys) =
      ((processChannel p (processChannel p e xs).1 ys).1,
       (processChannel p e xs).2 ++ (processChannel p (processChannel p e xs).1 ys).2) := by
  induction xs generalizing e with
  | nil => simp [processChannel]
  | cons x xs ih => simp [processChannel, ih]

theorem processChannel_length (p : Snapshot K) (e : K) (xs : List K) :
    (processChannel p e xs).2.length = xs.length := by
  induction xs generalizing e with
  | nil => simp [processChannel]
  | cons x xs ih => simp [processChannel, ih]

/-- The envelope after the first `n + 1` samples of a stream is one step on from the
envelope after the first `n`. -/
theorem processChannel_range_succ (p : Snapshot K) (e : K) (x : ℕ → K) (n : ℕ) :
    (processChannel p e ((List.range (n + 1)).map x)).1 =
      (sampleStep p (processChannel p e ((List.range n).map x)).1 (x n)).1 := by
  rw [List.range_succ, List.map_append, processChannel_append]
  simp [processChannel]

theorem processChannels_single (p : Snapshot K) (e : K) (A : List K) :
    processChannels p e [A] = ((processChannel p e A).1, [(processChannel p e A).2]) := by
  simp [processChannels]

theorem clearUnusedChannels_single (nin nout : ℕ) (A : List K) (h : 0 < nin) :
    clearUnusedChannels nin nout 0 [A] = [A] := by
  simp [clearUnusedChannels, Nat.pos_iff_ne_zero.mp h]

/-- `processBlockWith` on a one-channel block, with an input channel on the bus and
one-channel visualization buffers at least as long as the block: it returns, the block
becomes the processed channel, and each visualization buffer has its first samples
overwritten. -/
theorem processBlockWith_single (p : Snapshot K) (st : Processor K) (A vi vo : List K)
    (hin : 0 < st.totalNumInputChannels) (hvi : st.inputBuffer = [vi])
    (hvo : st.outputBuffer = [vo]) (hli : A.length ≤ vi.length) (hlo : A.length ≤ vo.length) :
    processBlockWith p st [A] =
      some ({ st with
              inputBuffer := [A ++ vi.drop A.length]
              outputBuffer := [(processChannel p st.envelope A).2 ++ vo.drop A.length]
              envelope := (processChannel p st.envelope A).1 },
            [(processChannel p st.envelope A).2]) := by
  have hlen := processChannel_length p st.envelope A
  have hc := copyFrom_single vo (processChannel p st.envelope A).2 (by rw [hlen]; exact hlo)
  rw [hlen] at hc
  simp only [processBlockWith, clearUnusedChannels_single _ _ A hin, hvi, hvo,
    AudioBuffer.getNumSamples, copyFrom_single vi A hli, processChannels_single, hlen, hc]

end Lemmas

section Decibels

theorem decibelsToGain_pos (d : ℝ) : 0 < decibelsToGain d :=
  Real.rpow_pos_of_pos (by norm_num) _

theorem decibelsToGain_zero : decibelsToGain 0 = 1 := by
  simp [decibelsToGain]

theorem decibelsToGain_neg (d : ℝ) : decibelsToGain (-d) = (decibelsToGain d)⁻¹ := by
  unfold decibelsToGain
  rw [neg_div, Real.rpow_neg (by norm_num)]

theorem decibelsToGain_pow_twenty (d : ℕ) : decibelsToGain d ^ 20 = 10 ^ d := by
  unfold decibelsToGain
  rw [← Real.rpow_natCast, ← Real.rpow_mul (by norm_num)]
  rw [show (d : ℝ) / 20 * ((20 : ℕ) : ℝ) = (d : ℝ) by push_cast; ring]
  exact Real.rpow_natCast 10 d

/-- `10^(6/20)` to five decimals, from `(10^(6/20))^20 = 10^6`. -/
theorem decibelsToGain_six_bounds :
    199526 / 100000 < decibelsToGain 6 ∧ decibelsToGain 6 < 199527 / 100000 := by
  have h := decibelsToGain_pow_twenty 6
  have hp := decibelsToGain_pos 6
  norm_num at h
  constructor
  · by_contra hc
    have := pow_le_pow_left₀ hp.le (not_lt.mp hc) 20
    rw [h] at this
    norm_num at this
  · by_contra hc
    have := pow_le_pow_left₀ (by norm_num) (not_lt.mp hc) 20
    rw [h] at this
    norm_num at this

/-- `10^(-6/20)` to five decimals. -/
theorem decibelsToGain_neg_six_bounds :
    50118 / 100000 < decibelsToGain (-6) ∧ decibelsToGain (-6) < 50119 / 100000 := by
  obtain ⟨hl, hu⟩ := decibelsToGain_six_bounds
  have hp := decibelsToGain_pos 6
  rw [decibelsToGain_neg]
  constructor
  · rw [lt_inv_comm₀ (by norm_num) hp]
    exact lt_trans hu (by norm_num)
  · rw [inv_lt_comm₀ hp (by norm_num)]
    exact lt_trans (by norm_num) hl

end Decibels

/-! ## Helper lemmas on the IEEE rounding -/

section PowersOfTwo

variable {K : Type} [LinearOrderedField K]

theorem two_zpow_pred (p : ℕ) (hp : 1 ≤ p) :
    (2 : K) ^ ((p : ℤ) - 1) = (((2 : ℤ) ^ (p - 1) : ℤ) : K) := by
  have : ((p : ℤ) - 1) = ((p - 1 : ℕ) : ℤ) := by omega
  rw [this, zpow_natCast]
  push_cast
  rfl

theorem scaled_ge (p : ℕ) {x : K} (e : ℤ) (hlo : (2 : K) ^ e ≤ x) :
    (2 : K) ^ ((p : ℤ) - 1) ≤ x / 2 ^ (e - ((p : ℤ) - 1)) := by
  have hu : (0 : K) < 2 ^ (e - ((p : ℤ) - 1)) := zpow_pos (by norm_num) _
  rw [le_div_iff₀ hu, ← zpow_add₀ (by norm_num : (2 : K) ≠ 0)]
  have : (p : ℤ) - 1 + (e - ((p : ℤ) - 1)) = e := by ring
  rw [this]
  exact hlo

theorem scaled_lt (p : ℕ) {x : K} (e : ℤ) (hhi : x < (2 : K) ^ (e + 1)) :
    x / 2 ^ (e - ((p : ℤ) - 1)) < (2 : K) ^ (p : ℤ) := by
  have hu : (0 : K) < 2 ^ (e - ((p : ℤ) - 1)) := zpow_pos (by norm_num) _
  rw [div_lt_iff₀ hu, ← zpow_add₀ (by norm_num : (2 : K) ≠ 0)]
  have : (p : ℤ) + (e - ((p : ℤ) - 1)) = e + 1 := by ring
  rw [this]
  exact hhi

theorem flushToZero_nonneg (minExp : ℤ) {r : K} (hr : 0 ≤ r) : 0 ≤ flushToZero minExp r := by
  unfold flushToZero
  split_ifs
  · exact le_rfl
  · exact hr

theorem flushToZero_mono (minExp : ℤ) {r1 r2 : K} (h2 : 0 ≤ r2) (h : r1 ≤ r2) :
    flushToZero minExp r1 ≤ flushToZero minExp r2 := by
  unfold flushToZero
  split_ifs with a b b
  · exact le_rfl
  · exact h2
  · exact absurd (lt_of_le_of_lt h b) a
  · exact h

end PowersOfTwo

section Rounding

variable {K : Type} [LinearOrderedField K] [FloorRing K]

theorem roundHalfEven_floor_le (q : K) : ⌊q⌋ ≤ roundHalfEven q := by
  unfold roundHalfEven
  split_ifs <;> omega

theorem roundHalfEven_le_floor_succ (q : K) : roundHalfEven q ≤ ⌊q⌋ + 1 := by
  unfold roundHalfEven
  split_ifs <;> omega

theorem roundHalfEven_intCast (n : ℤ) : roundHalfEven (n : K) = n := by
  unfold roundHalfEven
  simp

theorem roundHalfEven_mono {q1 q2 : K} (h : q1 ≤ q2) : roundHalfEven q1 ≤ roundHalfEven q2 := by
  have hf : ⌊q1⌋ ≤ ⌊q2⌋ := Int.floor_mono h
  rcases lt_or_eq_of_le hf with hlt | heq
  · calc roundHalfEven q1 ≤ ⌊q1⌋ + 1 := roundHalfEven_le_floor_succ q1
      _ ≤ ⌊q2⌋ := hlt
      _ ≤ roundHalfEven q2 := roundHalfEven_floor_le q2
  · unfold roundHalfEven
    rw [heq]
    have hsub : q1 - (⌊q2⌋ : K) ≤ q2 - (⌊q2⌋ : K) := by linarith
    split_ifs <;> first | omega | (exfalso; linarith)

theorem roundHalfEven_eq_of_near (q : K) (n : ℤ) (h1 : (n : K) - 1 / 2 < q)
    (h2 : q < (n : K) + 1 / 2) : roundHalfEven q = n := by
  rcases le_or_lt (n : K) q with hle | hlt
  · have hf : ⌊q⌋ = n := Int.floor_eq_iff.mpr ⟨hle, by linarith⟩
    unfold roundHalfEven
    rw [hf, if_pos (by linarith)]
  · have hf : ⌊q⌋ = n - 1 := Int.floor_eq_iff.mpr ⟨by push_cast; linarith, by push_cast; linarith⟩
    unfold roundHalfEven
    rw [hf]
    have : ¬ (q - ((n - 1 : ℤ) : K) < 1 / 2) := by push_cast; linarith
    have h3 : (1 : K) / 2 < q - ((n - 1 : ℤ) : K) := by push_cast; linarith
    rw [if_neg this, if_pos h3]
    omega

theorem roundHalfEven_tie_odd (n : ℤ) (hn : n % 2 = 1) :
    roundHalfEven ((n : K) + 1 / 2) = n + 1 := by
  have hf : ⌊(n : K) + 1 / 2⌋ = n := Int.floor_eq_iff.mpr ⟨by linarith, by linarith⟩
  unfold roundHalfEven
  rw [hf]
  have h1 : ¬ ((n : K) + 1 / 2 - n < 1 / 2) := by simp
  have h2 : ¬ ((1 : K) / 2 < (n : K) + 1 / 2 - n) := by simp
  rw [if_neg h1, if_neg h2, if_neg (by omega)]

theorem two_zpow_log_le {x : K} (hx : 0 < x) : (2 : K) ^ Int.log 2 x ≤ x := by
  have := Int.zpow_log_le_self (b := 2) (r := x) (by norm_num) hx
  simpa using this

theorem lt_two_zpow_log_succ (x : K) : x < (2 : K) ^ (Int.log 2 x + 1) := by
  have := Int.lt_zpow_succ_log_self (b := 2) (by norm_num) x
  simpa using this

theorem log_two_eq {x : K} (e : ℤ) (hlo : (2 : K) ^ e ≤ x) (hhi : x < (2 : K) ^ (e + 1)) :
    Int.log 2 x = e := by
  have hx : 0 < x := lt_of_lt_of_le (zpow_pos (by norm_num) e) hlo
  have h1 : e ≤ Int.log 2 x := by
    rw [← Int.zpow_le_iff_le_log (b := 2) (by norm_num) hx]
    simpa using hlo
  have h2 : Int.log 2 x < e + 1 := by
    rw [← Int.lt_zpow_iff_log_lt (b := 2) (by norm_num) hx]
    simpa using hhi
  omega

/-- With `2^e ≤ x < 2^(e+1)` the rounding works on `x / 2^(e - (p-1))`. -/
theorem roundMagnitude_eq (p : ℕ) {x : K} (e : ℤ) (hlo : (2 : K) ^ e ≤ x)
    (hhi : x < (2 : K) ^ (e + 1)) :
    roundMagnitude p x
      = (roundHalfEven (x / 2 ^ (e - ((p : ℤ) - 1))) : K) * 2 ^ (e - ((p : ℤ) - 1)) := by
  unfold roundMagnitude
  rw [log_two_eq e hlo hhi]

theorem roundMagnitude_ge (p : ℕ) (hp : 1 ≤ p) {x : K} (hx : 0 < x) :
    (2 : K) ^ Int.log 2 x ≤ roundMagnitude p x := by
  have hlo := two_zpow_log_le hx
  have hu : (0 : K) < 2 ^ (Int.log 2 x - ((p : ℤ) - 1)) := zpow_pos (by norm_num) _
  have hs := scaled_ge p (Int.log 2 x) hlo
  rw [two_zpow_pred p hp] at hs
  have hr : ((2 : ℤ) ^ (p - 1) : ℤ) ≤ roundHalfEven (x / 2 ^ (Int.log 2 x - ((p : ℤ) - 1))) := by
    have := roundHalfEven_mono hs
    rwa [roundHalfEven_intCast] at this
  have hrK : (((2 : ℤ) ^ (p - 1) : ℤ) : K)
      ≤ (roundHalfEven (x / 2 ^ (Int.log 2 x - ((p : ℤ) - 1))) : K) := by exact_mod_cast hr
  unfold roundMagnitude
  calc (2 : K) ^ Int.log 2 x
      = (2 : K) ^ ((p : ℤ) - 1) * 2 ^ (Int.log 2 x - ((p : ℤ) - 1)) := by
        rw [← zpow_add₀ (by norm_num : (2 : K) ≠ 0)]; congr 1; ring
    _ = (((2 : ℤ) ^ (p - 1) : ℤ) : K) * 2 ^ (Int.log 2 x - ((p : ℤ) - 1)) := by
        rw [two_zpow_pred p hp]
    _ ≤ _ := mul_le_mul_of_nonneg_right hrK hu.le

theorem roundMagnitude_le (p : ℕ) {x : K} :
    roundMagnitude p x ≤ (2 : K) ^ (Int.log 2 x + 1) := by
  have hhi := lt_two_zpow_log_succ x
  have hu : (0 : K) < 2 ^ (Int.log 2 x - ((p : ℤ) - 1)) := zpow_pos (by norm_num) _
  have hs := (scaled_lt p (Int.log 2 x) hhi).le
  have hcast : (2 : K) ^ (p : ℤ) = (((2 : ℤ) ^ p : ℤ) : K) := by
    rw [zpow_natCast]; push_cast; rfl
  rw [hcast] at hs
  have hr : roundHalfEven (x / 2 ^ (Int.log 2 x - ((p : ℤ) - 1))) ≤ ((2 : ℤ) ^ p : ℤ) := by
    have := roundHalfEven_mono hs
    rwa [roundHalfEven_intCast] at this
  have hrK : (roundHalfEven (x / 2 ^ (Int.log 2 x - ((p : ℤ) - 1))) : K)
      ≤ (((2 : ℤ) ^ p : ℤ) : K) := by exact_mod_cast hr
  unfold roundMagnitude
  calc _ ≤ (((2 : ℤ) ^ p : ℤ) : K) * 2 ^ (Int.log 2 x - ((p : ℤ) - 1)) :=
        mul_le_mul_of_nonneg_right hrK hu.le
    _ = (2 : K) ^ (p : ℤ) * 2 ^ (Int.log 2 x - ((p : ℤ) - 1)) := by rw [hcast]
    _ = (2 : K) ^ (Int.log 2 x + 1) := by
        rw [← zpow_add₀ (by norm_num : (2 : K) ≠ 0)]; congr 1; ring

theorem roundMagnitude_pos (p : ℕ) (hp : 1 ≤ p) {x : K} (hx : 0 < x) :
    0 < roundMagnitude p x :=
  lt_of_lt_of_le (zpow_pos (by norm_num) _) (roundMagnitude_ge p hp hx)

theorem roundMagnitude_mono (p : ℕ) (hp : 1 ≤ p) {x y : K} (hx : 0 < x) (hxy : x ≤ y) :
    roundMagnitude p x ≤ roundMagnitude p y := by
  have hy : 0 < y := lt_of_lt_of_le hx hxy
  have hlog : Int.log 2 x ≤ Int.log 2 y := Int.log_mono_right hx hxy
  rcases lt_or_eq_of_le hlog with hlt | heq
  · calc roundMagnitude p x ≤ (2 : K) ^ (Int.log 2 x + 1) := roundMagnitude_le p
      _ ≤ (2 : K) ^ Int.log 2 y := zpow_le_zpow_right₀ (by norm_num) (by omega)
      _ ≤ roundMagnitude p y := roundMagnitude_ge p hp hy
  · unfold roundMagnitude
    rw [heq]
    have hu : (0 : K) < 2 ^ (Int.log 2 y - ((p : ℤ) - 1)) := zpow_pos (by norm_num) _
    have hdiv : x / 2 ^ (Int.log 2 y - ((p : ℤ) - 1)) ≤ y / 2 ^ (Int.log 2 y - ((p : ℤ) - 1)) :=
      div_le_div_of_nonneg_right hxy hu.le
    have hr := roundHalfEven_mono hdiv
    have hrK : (roundHalfEven (x / 2 ^ (Int.log 2 y - ((p : ℤ) - 1))) : K)
        ≤ (roundHalfEven (y / 2 ^ (Int.log 2 y - ((p : ℤ) - 1))) : K) := by exact_mod_cast hr
    exact mul_le_mul_of_nonneg_right hrK hu.le

/-- A significand of `p` bits times a power of two is left as it is. -/
theorem roundMagnitude_exact (p : ℕ) (hp : 1 ≤ p) (m : ℤ) (z : ℤ)
    (h1 : (2 : ℤ) ^ (p - 1) ≤ m) (h2 : m < (2 : ℤ) ^ p) :
    roundMagnitude p ((m : K) * 2 ^ z) = (m : K) * 2 ^ z := by
  have hz : (0 : K) < 2 ^ z := zpow_pos (by norm_num) z
  have h1K : (2 : K) ^ ((p : ℤ) - 1) ≤ (m : K) := by
    rw [two_zpow_pred p hp]; exact_mod_cast h1
  have h2K : (m : K) < (2 : K) ^ (p : ℤ) := by
    rw [zpow_natCast]; exact_mod_cast h2
  have hlo : (2 : K) ^ (z + ((p : ℤ) - 1)) ≤ (m : K) * 2 ^ z := by
    rw [zpow_add₀ (by norm_num : (2 : K) ≠ 0), mul_comm]
    exact mul_le_mul_of_nonneg_right h1K hz.le
  have hhi : (m : K) * 2 ^ z < (2 : K) ^ (z + ((p : ℤ) - 1) + 1) := by
    have : z + ((p : ℤ) - 1) + 1 = (p : ℤ) + z := by ring
    rw [this, zpow_add₀ (by norm_num : (2 : K) ≠ 0)]
    exact mul_lt_mul_of_pos_right h2K hz
  rw [roundMagnitude_eq p (z + ((p : ℤ) - 1)) hlo hhi]
  have : z + ((p : ℤ) - 1) - ((p : ℤ) - 1) = z := by ring
  rw [this, mul_div_assoc, div_self hz.ne', mul_one, roundHalfEven_intCast]

theorem roundIeee_zero (p : ℕ) (minExp : ℤ) : roundIeee p minExp (0 : K) = 0 := by
  simp [roundIeee]

theorem roundIeee_nonneg (p : ℕ) (hp : 1 ≤ p) (minExp : ℤ) {x : K} (hx : 0 ≤ x) :
    0 ≤ roundIeee p minExp x := by
  unfold roundIeee
  split_ifs with h1 h2
  · exact flushToZero_nonneg minExp (roundMagnitude_pos p hp h1).le
  · exact absurd hx (not_le.mpr h2)
  · exact le_rfl

theorem roundIeee_neg (p : ℕ) (minExp : ℤ) (x : K) :
    roundIeee p minExp (-x) = -roundIeee p minExp x := by
  unfold roundIeee
  rcases lt_trichotomy x 0 with h | h | h
  · have h1 : ¬ (0 < x) := not_lt.mpr h.le
    have h2 : (0 : K) < -x := neg_pos.mpr h
    rw [if_pos h2, if_neg h1, if_pos h, neg_neg]
  · subst h; simp
  · have h1 : ¬ ((0 : K) < -x) := by rw [neg_pos]; exact not_lt.mpr h.le
    have h2 : -x < 0 := neg_neg_of_pos h
    rw [if_neg h1, if_pos h2, if_pos h, neg_neg]

theorem roundIeee_nonpos (p : ℕ) (hp : 1 ≤ p) (minExp : ℤ) {x : K} (hx : x ≤ 0) :
    roundIeee p minExp x ≤ 0 := by
  have := roundIeee_nonneg p hp minExp (neg_nonneg.mpr hx)
  rw [roundIeee_neg] at this
  linarith

theorem roundIeee_mono (p : ℕ) (hp : 1 ≤ p) (minExp : ℤ) {x y : K} (h : x ≤ y) :
    roundIeee p minExp x ≤ roundIeee p minExp y := by
  have pos : ∀ {a b : K}, 0 < a → a ≤ b → roundIeee p minExp a ≤ roundIeee p minExp b := by
    intro a b ha hab
    have hb : 0 < b := lt_of_lt_of_le ha hab
    unfold roundIeee
    rw [if_pos ha, if_pos hb]
    exact flushToZero_mono minExp (roundMagnitude_pos p hp hb).le (roundMagnitude_mono p hp ha hab)
  rcases lt_or_le 0 x with hx | hx
  · exact pos hx h
  · rcases le_or_lt 0 y with hy | hy
    · exact le_trans (roundIeee_nonpos p hp minExp hx) (roundIeee_nonneg p hp minExp hy)
    · have := pos (neg_pos.mpr hy) (neg_le_neg h)
      rw [roundIeee_neg, roundIeee_neg] at this
      linarith

/-- A significand of `p` bits times a power of two, not below the smallest normal
number, is left as it is. -/
theorem roundIeee_exact (p : ℕ) (hp : 1 ≤ p) (minExp : ℤ) (m : ℤ) (z : ℤ)
    (h1 : (2 : ℤ) ^ (p - 1) ≤ m) (h2 : m < (2 : ℤ) ^ p) (hz : minExp ≤ z + ((p : ℤ) - 1)) :
    roundIeee p minExp ((m : K) * 2 ^ z) = (m : K) * 2 ^ z := by
  have hzpos : (0 : K) < 2 ^ z := zpow_pos (by norm_num) z
  have hm : (0 : K) < (m : K) := by
    have : (0 : ℤ) < m := lt_of_lt_of_le (by positivity) h1
    exact_mod_cast this
  have hx : (0 : K) < (m : K) * 2 ^ z := mul_pos hm hzpos
  have h1K : (2 : K) ^ ((p : ℤ) - 1) ≤ (m : K) := by
    rw [two_zpow_pred p hp]; exact_mod_cast h1
  have hbig : (2 : K) ^ minExp ≤ (m : K) * 2 ^ z := by
    calc (2 : K) ^ minExp ≤ (2 : K) ^ (z + ((p : ℤ) - 1)) :=
          zpow_le_zpow_right₀ (by norm_num) hz
      _ = (2 : K) ^ ((p : ℤ) - 1) * 2 ^ z := by
          rw [← zpow_add₀ (by norm_num : (2 : K) ≠ 0)]; congr 1; ring
      _ ≤ (m : K) * 2 ^ z := mul_le_mul_of_nonneg_right h1K hzpos.le
  unfold roundIeee
  rw [if_pos hx, roundMagnitude_exact p hp m z h1 h2]
  unfold flushToZero
  rw [if_neg (not_lt.mpr hbig)]

theorem roundIeee_two_zpow (p : ℕ) (hp : 1 ≤ p) (minExp : ℤ) (z : ℤ) (hz : minExp ≤ z) :
    roundIeee p minExp ((2 : K) ^ z) = (2 : K) ^ z := by
  have h := roundIeee_exact (K := K) p hp minExp ((2 : ℤ) ^ (p - 1)) (z - ((p : ℤ) - 1)) le_rfl
    (pow_lt_pow_right₀ (by norm_num) (by omega)) (by omega)
  have e : (((2 : ℤ) ^ (p - 1) : ℤ) : K) * 2 ^ (z - ((p : ℤ) - 1)) = (2 : K) ^ z := by
    rw [← two_zpow_pred p hp, ← zpow_add₀ (by norm_num : (2 : K) ≠ 0)]; congr 1; ring
  rwa [e] at h

theorem roundIeee_two_zpow_flush (p : ℕ) (hp : 1 ≤ p) (minExp : ℤ) (z : ℤ) (hz : z < minExp) :
    roundIeee p minExp ((2 : K) ^ z) = 0 := by
  have hm := roundMagnitude_exact (K := K) p hp ((2 : ℤ) ^ (p - 1)) (z - ((p : ℤ) - 1)) le_rfl
    (pow_lt_pow_right₀ (by norm_num) (by omega))
  have e : (((2 : ℤ) ^ (p - 1) : ℤ) : K) * 2 ^ (z - ((p : ℤ) - 1)) = (2 : K) ^ z := by
    rw [← two_zpow_pred p hp, ← zpow_add₀ (by norm_num : (2 : K) ≠ 0)]; congr 1; ring
  rw [e] at hm
  unfold roundIeee
  rw [if_pos (zpow_pos (by norm_num) z), hm]
  unfold flushToZero
  rw [if_pos (zpow_lt_zpow_right₀ (by norm_num) hz)]

theorem roundIeee_idem (p : ℕ) (hp : 1 ≤ p) (minExp : ℤ) (x : K) :
    roundIeee p minExp (roundIeee p minExp x) = roundIeee p minExp x := by
  have pos : ∀ {a : K}, 0 < a →
      roundIeee p minExp (roundIeee p minExp a) = roundIeee p minExp a := by
    intro a ha
    have hval : roundIeee p minExp a = flushToZero minExp (roundMagnitude p a) := by
      unfold roundIeee; rw [if_pos ha]
    rw [hval]
    unfold flushToZero
    split_ifs with hf
    · exact roundIeee_zero p minExp
    · -- the rounded magnitude is n * 2^z with 2^(p-1) ≤ n ≤ 2^p
      have hlo := two_zpow_log_le ha
      have hhi := lt_two_zpow_log_succ a
      have hu : (0 : K) < 2 ^ (Int.log 2 a - ((p : ℤ) - 1)) := zpow_pos (by norm_num) _
      have hs1 := scaled_ge p (Int.log 2 a) hlo
      rw [two_zpow_pred p hp] at hs1
      have hs2 := (scaled_lt p (Int.log 2 a) hhi).le
      have hcast : (2 : K) ^ (p : ℤ) = (((2 : ℤ) ^ p : ℤ) : K) := by
        rw [zpow_natCast]; push_cast; rfl
      rw [hcast] at hs2
      have hn1 : ((2 : ℤ) ^ (p - 1) : ℤ) ≤ roundHalfEven (a / 2 ^ (Int.log 2 a - ((p : ℤ) - 1))) := by
        have := roundHalfEven_mono hs1
        rwa [roundHalfEven_intCast] at this
      have hn2 : roundHalfEven (a / 2 ^ (Int.log 2 a - ((p : ℤ) - 1))) ≤ ((2 : ℤ) ^ p : ℤ) := by
        have := roundHalfEven_mono hs2
        rwa [roundHalfEven_intCast] at this
      have hrm : roundMagnitude p a
          = (roundHalfEven (a / 2 ^ (Int.log 2 a - ((p : ℤ) - 1))) : K)
            * 2 ^ (Int.log 2 a - ((p : ℤ) - 1)) := rfl
      have hnf : (2 : K) ^ minExp ≤ roundMagnitude p a := not_lt.mp hf
      have hle := roundMagnitude_le (K := K) p (x := a)
      rcases lt_or_eq_of_le hn2 with hlt | heq
      · have hmin : minExp ≤ Int.log 2 a := by
          by_contra hc
          have h1 : Int.log 2 a + 1 ≤ minExp := by omega
          have h2 : (2 : K) ^ (Int.log 2 a + 1) ≤ (2 : K) ^ minExp :=
            zpow_le_zpow_right₀ (by norm_num) h1
          have h3 : roundMagnitude p a < (2 : K) ^ (Int.log 2 a + 1) := by
            rw [hrm]
            have hltK : (roundHalfEven (a / 2 ^ (Int.log 2 a - ((p : ℤ) - 1))) : K)
                < (((2 : ℤ) ^ p : ℤ) : K) := by exact_mod_cast hlt
            calc _ < (((2 : ℤ) ^ p : ℤ) : K) * 2 ^ (Int.log 2 a - ((p : ℤ) - 1)) :=
                  mul_lt_mul_of_pos_right hltK hu
              _ = (2 : K) ^ (Int.log 2 a + 1) := by
                  rw [← hcast, ← zpow_add₀ (by norm_num : (2 : K) ≠ 0)]; congr 1; ring
          linarith
        rw [hrm]
        exact roundIeee_exact p hp minExp _ _ hn1 hlt (by omega)
      · have hpow : roundMagnitude p a = (2 : K) ^ (Int.log 2 a + 1) := by
          rw [hrm, heq, ← hcast, ← zpow_add₀ (by norm_num : (2 : K) ≠ 0)]; congr 1; ring
        rw [hpow] at hnf ⊢
        have hmin : minExp ≤ Int.log 2 a + 1 := by
          by_contra hc
          have := zpow_lt_zpow_right₀ (by norm_num : (1 : K) < 2) (not_le.mp hc)
          linarith
        exact roundIeee_two_zpow p hp minExp _ hmin
  rcases lt_trichotomy x 0 with h | h | h
  · have := pos (neg_pos.mpr h)
    rw [roundIeee_neg, roundIeee_neg, neg_inj] at this
    exact this
  · subst h; rw [roundIeee_zero, roundIeee_zero]
  · exact pos h

theorem toFloat_zero : toFloat (0 : K) = 0 := roundIeee_zero 24 (-126)

theorem toFloat_nonneg {x : K} (hx : 0 ≤ x) : 0 ≤ toFloat x :=
  roundIeee_nonneg 24 (by norm_num) (-126) hx

theorem toFloat_nonpos {x : K} (hx : x ≤ 0) : toFloat x ≤ 0 :=
  roundIeee_nonpos 24 (by norm_num) (-126) hx

theorem toFloat_mono {x y : K} (h : x ≤ y) : toFloat x ≤ toFloat y :=
  roundIeee_mono 24 (by norm_num) (-126) h

theorem toFloat_idem (x : K) : toFloat (toFloat x) = toFloat x :=
  roundIeee_idem 24 (by norm_num) (-126) x

theorem toFloat_two_zpow (z : ℤ) (hz : -126 ≤ z) : toFloat ((2 : K) ^ z) = (2 : K) ^ z :=
  roundIeee_two_zpow 24 (by norm_num) (-126) z hz

theorem toFloat_two_zpow_flush (z : ℤ) (hz : z < -126) : toFloat ((2 : K) ^ z) = 0 :=
  roundIeee_two_zpow_flush 24 (by norm_num) (-126) z hz

theorem toFloat_exact (m z : ℤ) (h1 : (2 : ℤ) ^ 23 ≤ m) (h2 : m < (2 : ℤ) ^ 24)
    (hz : -149 ≤ z) : toFloat ((m : K) * 2 ^ z) = (m : K) * 2 ^ z :=
  roundIeee_exact 24 (by norm_num) (-126) m z h1 h2 (by push_cast; omega)

theorem toFloat_one : toFloat (1 : K) = 1 := by
  have := toFloat_two_zpow (K := K) 0 (by norm_num)
  simpa using this

theorem toDouble_zero : toDouble (0 : K) = 0 := roundIeee_zero 53 (-1022)

theorem toDouble_nonneg {x : K} (hx : 0 ≤ x) : 0 ≤ toDouble x :=
  roundIeee_nonneg 53 (by norm_num) (-1022) hx

theorem toDouble_nonpos {x : K} (hx : x ≤ 0) : toDouble x ≤ 0 :=
  roundIeee_nonpos 53 (by norm_num) (-1022) hx

theorem toDouble_mono {x y : K} (h : x ≤ y) : toDouble x ≤ toDouble y :=
  roundIeee_mono 53 (by norm_num) (-1022) h

theorem toDouble_neg (x : K) : toDouble (-x) = -toDouble x :=
  roundIeee_neg 53 (-1022) x

theorem toDouble_two_zpow (z : ℤ) (hz : -1022 ≤ z) : toDouble ((2 : K) ^ z) = (2 : K) ^ z :=
  roundIeee_two_zpow 53 (by norm_num) (-1022) z hz

theorem toDouble_one : toDouble (1 : K) = 1 := by
  have := toDouble_two_zpow (K := K) 0 (by norm_num)
  simpa using this

theorem processChannelFloat_append (p : Snapshot K) (e : K) (xs ys : List K) :
    processChannelFloat p e (xs ++ ys) =
      ((processChannelFloat p (processChannelFloat p e xs).1 ys).1,
       (processChannelFloat p e xs).2 ++ (processChannelFloat p (processChannelFloat p e xs).1 ys).2) := by
  induction xs generalizing e with
  | nil => simp [processChannelFloat]
  | cons x xs ih => simp [processChannelFloat, ih]

theorem processChannelFloat_range_succ (p : Snapshot K) (e : K) (x : ℕ → K) (n : ℕ) :
    (processChannelFloat p e ((List.range (n + 1)).map x)).1 =
      (sampleStepFloat p (processChannelFloat p e ((List.range n).map x)).1 (x n)).1 := by
  rw [List.range_succ, List.map_append, processChannelFloat_append]
  simp [processChannelFloat]

theorem processChannelFloat_replicate_succ (p : Snapshot K) (e x : K) (n : ℕ) :
    (processChannelFloat p e (List.replicate (n + 1) x)).1 =
      (processChannelFloat p (sampleStepFloat p e x).1 (List.replicate n x)).1 := by
  simp [List.replicate_succ, processChannelFloat]

/-- The release branch in `float` arithmetic. -/
theorem sampleStepFloat_release (p : Snapshot K) (e x : K) (h : |x| ≤ p.linearThreshold) :
    (sampleStepFloat p e x).1 = max (toFloat (e - toFloat (p.releaseCoeff * e))) 0 := by
  simp only [sampleStepFloat, compressSampleFloat, if_neg (not_lt.mpr h), jmax_eq_max]

/-- The attack branch in `float` arithmetic. -/
theorem sampleStepFloat_attack (p : Snapshot K) (e x : K) (h : |x| > p.linearThreshold) :
    (sampleStepFloat p e x).1 =
      toFloat (e + toFloat (p.attackCoeff *
        toFloat (toFloat (toFloat (|x| - p.linearThreshold) / p.ratio) - e))) := by
  simp only [sampleStepFloat, compressSampleFloat, if_pos h]

/-- One release step in `float` arithmetic from a non-negative `float` envelope: the new
envelope is a `float` between 0 and the old one. -/
theorem sampleStepFloat_release_bounds (p : Snapshot K) (e x : K)
    (h : |x| ≤ p.linearThreshold) (he : 0 ≤ e) (hfl : toFloat e = e)
    (hr : 0 ≤ p.releaseCoeff) :
    0 ≤ (sampleStepFloat p e x).1 ∧ (sampleStepFloat p e x).1 ≤ e ∧
    toFloat (sampleStepFloat p e x).1 = (sampleStepFloat p e x).1 := by
  rw [sampleStepFloat_release p e x h]
  have hu : 0 ≤ toFloat (p.releaseCoeff * e) := toFloat_nonneg (mul_nonneg hr he)
  have hle : toFloat (e - toFloat (p.releaseCoeff * e)) ≤ e := by
    have := toFloat_mono (show e - toFloat (p.releaseCoeff * e) ≤ e by linarith)
    rwa [hfl] at this
  refine ⟨le_max_right _ _, max_le hle he, ?_⟩
  rcases le_total (toFloat (e - toFloat (p.releaseCoeff * e))) 0 with h0 | h0
  · rw [max_eq_right h0, toFloat_zero]
  · rw [max_eq_left h0, toFloat_idem]

end Rounding

/-! ## The per-sample step -/

section Step

variable {K : Type} [LinearOrderedField K]

/-- C1. Attack branch of the loop body: when `|x| > T` the new envelope is
`e + a * ((|x| - T) / ratio - e)` and the sample written back is `g * (T + e1)` for
`x > 0` and `-g * (T + e1)` otherwise, `e1` being the new envelope.  The test and the
excess are taken on the raw magnitude `|x|`; the previous envelope `e` plays no part
in either. -/
theorem sampleStep_attack (T ratio a r g e x : K) (h : |x| > T) :
    let p : Snapshot K :=
      { linearGain := g, linearThreshold := T, ratio := ratio, attackCoeff := a, releaseCoeff := r }
    let e1 := e + a * ((|x| - T) / ratio - e)
    (sampleStep p e x).1 = e1 ∧
    (sampleStep p e x).2 = (if x > 0 then g * (T + e1) else -g * (T + e1)) := by
  intro p e1
  have hc := compressSample_attack p e x h
  refine ⟨?_, ?_⟩
  · simp only [sampleStep, hc]
  · simp only [sampleStep, hc]
    split_ifs
    · show (T + e1) * g = g * (T + e1)
      ring
    · show -(T + e1) * g = -g * (T + e1)
      ring

/-- Witness for C1 at `T = 1/2`, `ratio = 4`, `a = 1/2`, `g = 2`, `e = 0`, `x = -1` over `ℚ`. -/
theorem sampleStep_attack_witness :
    |(-1 : ℚ)| > 1 / 2 ∧
    (sampleStep (K := ℚ) ⟨2, 1 / 2, 4, 1 / 2, 1 / 3⟩ 0 (-1)).1 = 1 / 16 ∧
    (sampleStep (K := ℚ) ⟨2, 1 / 2, 4, 1 / 2, 1 / 3⟩ 0 (-1)).2 = -(9 / 8) := by
  have h : |(-1 : ℚ)| > 1 / 2 := by norm_num
  have t := sampleStep_attack (1 / 2 : ℚ) 4 (1 / 2) (1 / 3) 2 0 (-1) h
  refine ⟨h, ?_, ?_⟩
  · rw [t.1]; norm_num
  · rw [t.2]; norm_num

/-- C2. Release branch of the loop body: when `|x| ≤ T` (the boundary `|x| = T`
included) the new envelope is `max (e - r * e) 0` and the sample written back is
`x * g`.  With the threshold at 0 dB and the gain at 0 dB the sample `-1` comes back as
exactly `-1`, whatever the other parameters, the sample rate and the envelope are. -/
theorem sampleStep_release :
    (∀ (p : Snapshot K) (e x : K), |x| ≤ p.linearThreshold →
      sampleStep p e x = (max (e - p.releaseCoeff * e) 0, x * p.linearGain)) ∧
    (∀ (p : Snapshot K) (e x : K), |x| = p.linearThreshold →
      sampleStep p e x = (max (e - p.releaseCoeff * e) 0, x * p.linearGain)) ∧
    (∀ (ratio attackMs releaseMs sampleRate e : ℝ),
      (snapshot ⟨0, 0, ratio, attackMs, releaseMs⟩ sampleRate).linearThreshold = 1 ∧
      ¬ (|(-1 : ℝ)| > (snapshot ⟨0, 0, ratio, attackMs, releaseMs⟩ sampleRate).linearThreshold) ∧
      (sampleStep (snapshot ⟨0, 0, ratio, attackMs, releaseMs⟩ sampleRate) e (-1)).2 = -1) := by
  have main : ∀ (p : Snapshot K) (e x : K), |x| ≤ p.linearThreshold →
      sampleStep p e x = (max (e - p.releaseCoeff * e) 0, x * p.linearGain) := by
    intro p e x h
    simp only [sampleStep, compressSample_release p e x h]
  refine ⟨main, fun p e x h => main p e x h.le, ?_⟩
  intro ratio attackMs releaseMs sampleRate e
  have hT : (snapshot ⟨0, 0, ratio, attackMs, releaseMs⟩ sampleRate).linearThreshold = 1 := by
    simp only [snapshot, decibelsToGain_zero]
  have hg : (snapshot ⟨0, 0, ratio, attackMs, releaseMs⟩ sampleRate).linearGain = 1 := by
    simp only [snapshot, decibelsToGain_zero]
  have hx : |(-1 : ℝ)| ≤ (snapshot ⟨0, 0, ratio, attackMs, releaseMs⟩ sampleRate).linearThreshold := by
    rw [hT]; norm_num
  refine ⟨hT, not_lt.mpr hx, ?_⟩
  simp only [sampleStep, compressSample_release _ e (-1) hx, hg, mul_one]

/-- Witness for C2 over `ℚ`: `x = -1/2` at the boundary `T = 1/2` with `r = 1/4`, `g = 3`,
`e = 1`. -/
theorem sampleStep_release_witness :
    |(-(1 / 2) : ℚ)| ≤ 1 / 2 ∧
    sampleStep (K := ℚ) ⟨3, 1 / 2, 4, 1 / 2, 1 / 4⟩ 1 (-(1 / 2)) = (3 / 4, -(3 / 2)) := by
  have h : |(-(1 / 2) : ℚ)| ≤ 1 / 2 := by norm_num [abs_of_nonneg]
  refine ⟨h, ?_⟩
  rw [(sampleStep_release (K := ℚ)).1 ⟨3, 1 / 2, 4, 1 / 2, 1 / 4⟩ 1 (-(1 / 2)) h]
  norm_num

/-- C3. Sign preservation above the threshold: with `T > 0`, `g > 0`, `ratio ≥ 1`,
`0 < a ≤ 1` and a non-negative envelope, a sample with `|x| > T` is written back
strictly positive when `x > 0` and strictly negative when `x < 0`. -/
theorem sampleStep_sign (p : Snapshot K) (e x : K)
    (hx : |x| > p.linearThreshold) (hT : 0 < p.linearThreshold) (hg : 0 < p.linearGain)
    (hratio : 1 ≤ p.ratio) (ha0 : 0 < p.attackCoeff) (ha1 : p.attackCoeff ≤ 1) (he : 0 ≤ e) :
    (0 < x → 0 < (sampleStep p e x).2) ∧ (x < 0 → (sampleStep p e x).2 < 0) := by
  have hc := compressSample_attack p e x hx
  have ht : 0 < (|x| - p.linearThreshold) / p.ratio :=
    div_pos (sub_pos.mpr hx) (lt_of_lt_of_le one_pos hratio)
  have he1 : 0 ≤ e + p.attackCoeff * ((|x| - p.linearThreshold) / p.ratio - e) := by
    have h1 : 0 ≤ (1 - p.attackCoeff) * e := mul_nonneg (sub_nonneg.mpr ha1) he
    have h2 : 0 < p.attackCoeff * ((|x| - p.linearThreshold) / p.ratio) := mul_pos ha0 ht
    nlinarith
  have hpos : 0 < p.linearThreshold + (e + p.attackCoeff * ((|x| - p.linearThreshold) / p.ratio - e)) := by
    linarith
  constructor
  · intro h
    simp only [sampleStep, hc, if_pos (show x > 0 from h)]
    exact mul_pos hpos hg
  · intro h
    simp only [sampleStep, hc, if_neg (not_lt.mpr h.le)]
    exact mul_neg_of_neg_of_pos (neg_neg_of_pos hpos) hg

/-- Witness for C3 over `ℚ`: `x = -1` with `T = 1/2`, `g = 2`, `ratio = 4`, `a = 1/2`,
`e = 0` is written back as `-9/8 < 0`. -/
theorem sampleStep_sign_witness :
    (sampleStep (K := ℚ) ⟨2, 1 / 2, 4, 1 / 2, 1 / 3⟩ 0 (-1)).2 < 0 :=
  (sampleStep_sign (K := ℚ) ⟨2, 1 / 2, 4, 1 / 2, 1 / 3⟩ 0 (-1)
    (by norm_num) (by norm_num) (by norm_num) (by norm_num) (by norm_num) (by norm_num)
    (by norm_num)).2 (by norm_num)

/-- C4. The gain stage is applied on both branches: for every parameter snapshot,
envelope and sample, the value written back is the sample as the compression left it
(`±(T + e1)` above the threshold, with `e1` the new envelope, and `x` itself otherwise)
times `linearGain`, and `linearGain` is `10^(gainDb/20)`.  With ratio 1, threshold 0 dB
and gain +6 dB the sample `0.5` is written back as `0.5 * 10^(6/20)`, which lies within
`0.001` of `0.997`, for every envelope, attack, release and sample rate. -/
theorem sampleStep_gain_stage :
    (∀ (p : Snapshot ℝ) (e x : ℝ),
      (sampleStep p e x).2 =
        (if |x| > p.linearThreshold then
          (if x > 0 then p.linearThreshold + (sampleStep p e x).1
            else -(p.linearThreshold + (sampleStep p e x).1))
         else x) * p.linearGain) ∧
    (∀ (apvts : Parameters) (sampleRate : ℝ),
      (snapshot apvts sampleRate).linearGain = (10 : ℝ) ^ (apvts.GAIN / 20)) ∧
    (∀ (attackMs releaseMs sampleRate e : ℝ),
      (sampleStep (snapshot ⟨6, 0, 1, attackMs, releaseMs⟩ sampleRate) e (1 / 2)).2
          = 1 / 2 * (10 : ℝ) ^ ((6 : ℝ) / 20) ∧
      |(sampleStep (snapshot ⟨6, 0, 1, attackMs, releaseMs⟩ sampleRate) e (1 / 2)).2 - 997 / 1000|
          < 1 / 1000) := by
  refine ⟨?_, ?_, ?_⟩
  · intro p e x
    by_cases h : |x| > p.linearThreshold
    · simp only [sampleStep, compressSample_attack p e x h, if_pos h]
    · simp only [sampleStep, compressSample_release p e x (not_lt.mp h), if_neg h]
  · intro apvts sampleRate
    rfl
  · intro attackMs releaseMs sampleRate e
    have hT : (snapshot ⟨6, 0, 1, attackMs, releaseMs⟩ sampleRate).linearThreshold = 1 := by
      simp only [snapshot, decibelsToGain_zero]
    have hg : (snapshot ⟨6, 0, 1, attackMs, releaseMs⟩ sampleRate).linearGain
        = decibelsToGain 6 := rfl
    have hx : |(1 / 2 : ℝ)| ≤ (snapshot ⟨6, 0, 1, attackMs, releaseMs⟩ sampleRate).linearThreshold := by
      rw [hT, abs_of_pos (by norm_num)]; norm_num
    have hout : (sampleStep (snapshot ⟨6, 0, 1, attackMs, releaseMs⟩ sampleRate) e (1 / 2)).2
        = 1 / 2 * decibelsToGain 6 := by
      simp only [sampleStep, compressSample_release _ e (1 / 2) hx, hg]
    obtain ⟨hl, hu⟩ := decibelsToGain_six_bounds
    refine ⟨hout, ?_⟩
    rw [hout, abs_lt]
    constructor <;> linarith

end Step

/-! ## Runs of samples -/

section RunLemmas

variable {K : Type} [LinearOrderedField K] [FloorRing K]

theorem toFloat_one_div_pow (j : ℕ) (hj : j ≤ 126) :
    toFloat ((1 : K) / 2 ^ j) = 1 / 2 ^ j := by
  have h := toFloat_two_zpow (K := K) (-(j : ℤ)) (by omega)
  rw [zpow_neg, zpow_natCast, ← one_div] at h
  exact h

theorem processChannelFloat_replicate_snoc (p : Snapshot K) (e x : K) (n : ℕ) :
    (processChannelFloat p e (List.replicate (n + 1) x)).1 =
      (sampleStepFloat p (processChannelFloat p e (List.replicate n x)).1 x).1 := by
  rw [List.replicate_succ', processChannelFloat_append]
  simp [processChannelFloat]

/-- Release with `r = 1/2` in `float` arithmetic halves a power of two exactly while
the half is a normal number. -/
theorem release_half_step (j : ℕ) (hj : j + 1 ≤ 126) :
    (sampleStepFloat (⟨1, 1 / 2, 1, 1 / 2, 1 / 2⟩ : Snapshot K) (1 / 2 ^ j) 0).1
      = 1 / 2 ^ (j + 1) := by
  have hx : |(0 : K)| ≤ (⟨1, 1 / 2, 1, 1 / 2, 1 / 2⟩ : Snapshot K).linearThreshold := by
    rw [abs_zero]; norm_num
  rw [sampleStepFloat_release _ _ _ hx]
  have h1 : (1 / 2 : K) * (1 / 2 ^ j) = 1 / 2 ^ (j + 1) := by
    rw [pow_succ]; field_simp; ring
  have h2 : (1 : K) / 2 ^ j - 1 / 2 ^ (j + 1) = 1 / 2 ^ (j + 1) := by
    rw [pow_succ]; field_simp; ring
  show max (toFloat (1 / 2 ^ j - toFloat (1 / 2 * (1 / 2 ^ j)))) 0 = (1 : K) / 2 ^ (j + 1)
  rw [h1, toFloat_one_div_pow (j + 1) hj, h2, toFloat_one_div_pow (j + 1) hj]
  exact max_eq_left (by positivity)

/-- At the smallest normal number the product `r * e` is flushed to zero and the
envelope stays where it is. -/
theorem release_half_stuck :
    (sampleStepFloat (⟨1, 1 / 2, 1, 1 / 2, 1 / 2⟩ : Snapshot K) (1 / 2 ^ 126) 0).1
      = 1 / 2 ^ 126 := by
  have hx : |(0 : K)| ≤ (⟨1, 1 / 2, 1, 1 / 2, 1 / 2⟩ : Snapshot K).linearThreshold := by
    rw [abs_zero]; norm_num
  rw [sampleStepFloat_release _ _ _ hx]
  have h1 : (1 / 2 : K) * (1 / 2 ^ 126) = 2 ^ (-127 : ℤ) := by
    rw [zpow_neg, show ((127 : ℤ)) = ((127 : ℕ) : ℤ) by norm_num, zpow_natCast]
    norm_num
  show max (toFloat (1 / 2 ^ 126 - toFloat (1 / 2 * (1 / 2 ^ 126)))) 0 = (1 : K) / 2 ^ 126
  rw [h1, toFloat_two_zpow_flush (-127) (by norm_num), sub_zero,
    toFloat_one_div_pow 126 le_rfl]
  exact max_eq_left (by positivity)

theorem release_half_run (n : ℕ) (hn : n ≤ 126) :
    (processChannelFloat (⟨1, 1 / 2, 1, 1 / 2, 1 / 2⟩ : Snapshot K) 1 (List.replicate n 0)).1
      = 1 / 2 ^ n := by
  induction n with
  | zero => simp [processChannelFloat]
  | succ n ih =>
      rw [processChannelFloat_replicate_snoc, ih (by omega)]
      exact release_half_step n hn

theorem release_half_stuck_run (n : ℕ) :
    (processChannelFloat (⟨1, 1 / 2, 1, 1 / 2, 1 / 2⟩ : Snapshot K) 1
      (List.replicate (126 + n) 0)).1 = 1 / 2 ^ 126 := by
  induction n with
  | zero => exact release_half_run 126 le_rfl
  | succ n ih =>
      rw [← add_assoc, processChannelFloat_replicate_snoc, ih]
      exact release_half_stuck

/-- The attack target for `|x| = 1`, `T = 1/2`, ratio 4 in `float` arithmetic is `1/8`. -/
theorem attack_half_target :
    toFloat (toFloat (|(1 : K)| - 1 / 2) / 4) = 1 / 2 ^ 3 := by
  have h1 : |(1 : K)| - 1 / 2 = 1 / 2 ^ 1 := by rw [abs_one]; norm_num
  have h2 : (1 : K) / 2 ^ 1 / 4 = 1 / 2 ^ 3 := by norm_num
  rw [h1, toFloat_one_div_pow 1 (by norm_num), h2, toFloat_one_div_pow 3 (by norm_num)]

/-- Attack with `a = 1/2` toward `1/8` in `float` arithmetic halves the distance exactly
while the result fits a 24-bit significand. -/
theorem attack_half_step (n k : ℕ) (hnk : n + k = 23) :
    (sampleStepFloat (⟨1, 1 / 2, 4, 1 / 2, 1 / 2⟩ : Snapshot K) (1 / 2 ^ 3 - 1 / 2 ^ (n + 3)) 1).1
      = 1 / 2 ^ 3 - 1 / 2 ^ (n + 4) := by
  have hx : |(1 : K)| > (⟨1, 1 / 2, 4, 1 / 2, 1 / 2⟩ : Snapshot K).linearThreshold := by
    rw [abs_one]; norm_num
  rw [sampleStepFloat_attack _ _ _ hx]
  show toFloat (1 / 2 ^ 3 - 1 / 2 ^ (n + 3) + toFloat (1 / 2 *
      toFloat (toFloat (toFloat (|(1 : K)| - 1 / 2) / 4) - (1 / 2 ^ 3 - 1 / 2 ^ (n + 3)))))
    = 1 / 2 ^ 3 - 1 / 2 ^ (n + 4)
  have hd : (1 : K) / 2 ^ 3 - (1 / 2 ^ 3 - 1 / 2 ^ (n + 3)) = 1 / 2 ^ (n + 3) := by ring
  have hm : (1 / 2 : K) * (1 / 2 ^ (n + 3)) = 1 / 2 ^ (n + 4) := by
    rw [pow_succ (2 : K) (n + 3)]; field_simp; ring
  have ha0 : (2 : K) ^ n ≠ 0 := pow_ne_zero n (by norm_num)
  have hb : (2 : K) ^ k = 2 ^ 23 / 2 ^ n := by
    rw [eq_div_iff ha0, ← pow_add]; congr 1; omega
  have h27 : (2 : K) ^ (-27 : ℤ) = 1 / 2 ^ 27 := by
    rw [zpow_neg, show ((27 : ℤ)) = ((27 : ℕ) : ℤ) by norm_num, zpow_natCast, one_div]
  have hres : (1 : K) / 2 ^ 3 - 1 / 2 ^ (n + 4)
      = (((2 : ℤ) ^ 24 - 2 ^ k : ℤ) : K) * 2 ^ (-27 : ℤ) := by
    rw [h27, pow_add]
    push_cast
    rw [hb]
    field_simp
    ring
  have hs : (1 : K) / 2 ^ 3 - 1 / 2 ^ (n + 3) + 1 / 2 ^ (n + 4)
      = (((2 : ℤ) ^ 24 - 2 ^ k : ℤ) : K) * 2 ^ (-27 : ℤ) := by
    rw [← hres, pow_add, pow_add]
    field_simp
    ring
  have hk : (2 : ℤ) ^ k ≤ 2 ^ 23 := pow_le_pow_right₀ (by norm_num) (by omega)
  have hk0 : (0 : ℤ) < 2 ^ k := by positivity
  rw [attack_half_target, hd, toFloat_one_div_pow (n + 3) (by omega), hm,
    toFloat_one_div_pow (n + 4) (by omega), hs, hres]
  exact toFloat_exact _ _ (by omega) (by omega) (by norm_num)

/-- The tie `1/8 - 2^-28`, half-way between the floats `1/8 - 2^-27` and `1/8`, rounds
to the one with the even significand, `1/8`. -/
theorem toFloat_tie_eighth : toFloat ((1 : K) / 2 ^ 3 - 1 / 2 ^ 28) = 1 / 2 ^ 3 := by
  have hpos : (0 : K) < 1 / 2 ^ 3 - 1 / 2 ^ 28 := by norm_num
  have hlo : (2 : K) ^ (-4 : ℤ) ≤ 1 / 2 ^ 3 - 1 / 2 ^ 28 := by
    rw [zpow_neg, show ((4 : ℤ)) = ((4 : ℕ) : ℤ) by norm_num, zpow_natCast]; norm_num
  have hhi : (1 : K) / 2 ^ 3 - 1 / 2 ^ 28 < (2 : K) ^ ((-4 : ℤ) + 1) := by
    rw [show ((-4 : ℤ) + 1) = -((3 : ℕ) : ℤ) by norm_num, zpow_neg, zpow_natCast]; norm_num
  have hq : ((1 : K) / 2 ^ 3 - 1 / 2 ^ 28) / 2 ^ ((-4 : ℤ) - (((24 : ℕ) : ℤ) - 1))
      = (((2 : ℤ) ^ 24 - 1 : ℤ) : K) + 1 / 2 := by
    rw [show ((-4 : ℤ) - (((24 : ℕ) : ℤ) - 1)) = -((27 : ℕ) : ℤ) by norm_num, zpow_neg,
      zpow_natCast]
    push_cast
    norm_num
  have hu : (2 : K) ^ ((-4 : ℤ) - (((24 : ℕ) : ℤ) - 1)) = 1 / 2 ^ 27 := by
    rw [show ((-4 : ℤ) - (((24 : ℕ) : ℤ) - 1)) = -((27 : ℕ) : ℤ) by norm_num, zpow_neg,
      zpow_natCast, one_div]
  have hmag : roundMagnitude 24 ((1 : K) / 2 ^ 3 - 1 / 2 ^ 28) = 1 / 2 ^ 3 := by
    rw [roundMagnitude_eq 24 (-4) hlo hhi, hq,
      roundHalfEven_tie_odd ((2 : ℤ) ^ 24 - 1) (by norm_num), hu]
    push_cast
    norm_num
  unfold toFloat roundIeee
  rw [if_pos hpos, hmag]
  unfold flushToZero
  rw [if_neg]
  rw [not_lt, zpow_neg, show ((126 : ℤ)) = ((126 : ℕ) : ℤ) by norm_num, zpow_natCast]
  norm_num

/-- The 25th step: from `1/8 - 2^-27` the exact update `1/8 - 2^-28` is a tie and the
`float` envelope lands on `1/8`. -/
theorem attack_half_tie :
    (sampleStepFloat (⟨1, 1 / 2, 4, 1 / 2, 1 / 2⟩ : Snapshot K) (1 / 2 ^ 3 - 1 / 2 ^ 27) 1).1
      = 1 / 2 ^ 3 := by
  have hx : |(1 : K)| > (⟨1, 1 / 2, 4, 1 / 2, 1 / 2⟩ : Snapshot K).linearThreshold := by
    rw [abs_one]; norm_num
  rw [sampleStepFloat_attack _ _ _ hx]
  show toFloat (1 / 2 ^ 3 - 1 / 2 ^ 27 + toFloat (1 / 2 *
      toFloat (toFloat (toFloat (|(1 : K)| - 1 / 2) / 4) - (1 / 2 ^ 3 - 1 / 2 ^ 27))))
    = 1 / 2 ^ 3
  have hd : (1 : K) / 2 ^ 3 - (1 / 2 ^ 3 - 1 / 2 ^ 27) = 1 / 2 ^ 27 := by ring
  have hm : (1 / 2 : K) * (1 / 2 ^ 27) = 1 / 2 ^ 28 := by norm_num
  have hs : (1 : K) / 2 ^ 3 - 1 / 2 ^ 27 + 1 / 2 ^ 28 = 1 / 2 ^ 3 - 1 / 2 ^ 28 := by norm_num
  rw [attack_half_target, hd, toFloat_one_div_pow 27 (by norm_num), hm,
    toFloat_one_div_pow 28 (by norm_num), hs]
  exact toFloat_tie_eighth

theorem attack_half_run (n : ℕ) (hn : n ≤ 24) :
    (processChannelFloat (⟨1, 1 / 2, 4, 1 / 2, 1 / 2⟩ : Snapshot K) 0 (List.replicate n 1)).1
      = 1 / 2 ^ 3 - 1 / 2 ^ (n + 3) := by
  induction n with
  | zero => simp [processChannelFloat]
  | succ n ih =>
      rw [processChannelFloat_replicate_snoc, ih (by omega)]
      exact attack_half_step n (23 - n) (by omega)

/-- The sum `1/8 - 2^-17 + 2^-29` lies a quarter of a unit in the last place above the
`float` `1/8 - 2^-17` and rounds back to it. -/
theorem toFloat_stall :
    toFloat ((1 : K) / 2 ^ 3 - 1 / 2 ^ 17 + 1 / 2 ^ 29) = 1 / 2 ^ 3 - 1 / 2 ^ 17 := by
  have hpos : (0 : K) < 1 / 2 ^ 3 - 1 / 2 ^ 17 + 1 / 2 ^ 29 := by norm_num
  have hlo : (2 : K) ^ (-4 : ℤ) ≤ 1 / 2 ^ 3 - 1 / 2 ^ 17 + 1 / 2 ^ 29 := by
    rw [zpow_neg, show ((4 : ℤ)) = ((4 : ℕ) : ℤ) by norm_num, zpow_natCast]; norm_num
  have hhi : (1 : K) / 2 ^ 3 - 1 / 2 ^ 17 + 1 / 2 ^ 29 < (2 : K) ^ ((-4 : ℤ) + 1) := by
    rw [show ((-4 : ℤ) + 1) = -((3 : ℕ) : ℤ) by norm_num, zpow_neg, zpow_natCast]; norm_num
  have hq : ((1 : K) / 2 ^ 3 - 1 / 2 ^ 17 + 1 / 2 ^ 29) / 2 ^ ((-4 : ℤ) - (((24 : ℕ) : ℤ) - 1))
      = (((2 : ℤ) ^ 24 - 2 ^ 10 : ℤ) : K) + 1 / 4 := by
    rw [show ((-4 : ℤ) - (((24 : ℕ) : ℤ) - 1)) = -((27 : ℕ) : ℤ) by norm_num, zpow_neg,
      zpow_natCast]
    push_cast
    norm_num
  have hu : (2 : K) ^ ((-4 : ℤ) - (((24 : ℕ) : ℤ) - 1)) = 1 / 2 ^ 27 := by
    rw [show ((-4 : ℤ) - (((24 : ℕ) : ℤ) - 1)) = -((27 : ℕ) : ℤ) by norm_num, zpow_neg,
      zpow_natCast, one_div]
  have hr : roundHalfEven ((((2 : ℤ) ^ 24 - 2 ^ 10 : ℤ) : K) + 1 / 4) = (2 : ℤ) ^ 24 - 2 ^ 10 :=
    roundHalfEven_eq_of_near _ _ (by linarith [show (0 : K) < 1 / 2 by norm_num])
      (by linarith [show (1 / 4 : K) < 1 / 2 by norm_num])
  have hmag : roundMagnitude 24 ((1 : K) / 2 ^ 3 - 1 / 2 ^ 17 + 1 / 2 ^ 29)
      = 1 / 2 ^ 3 - 1 / 2 ^ 17 := by
    rw [roundMagnitude_eq 24 (-4) hlo hhi, hq, hr, hu]
    push_cast
    norm_num
  unfold toFloat roundIeee
  rw [if_pos hpos, hmag]
  unfold flushToZero
  rw [if_neg]
  rw [not_lt, zpow_neg, show ((126 : ℤ)) = ((126 : ℕ) : ℤ) by norm_num, zpow_natCast]
  norm_num

/-- The number `1/8 - 2^-17` is a `float`. -/
theorem toFloat_stall_point :
    toFloat ((1 : K) / 2 ^ 3 - 1 / 2 ^ 17) = 1 / 2 ^ 3 - 1 / 2 ^ 17 := by
  have h := toFloat_exact (K := K) ((2 : ℤ) ^ 24 - 2 ^ 10) (-27) (by norm_num) (by norm_num)
    (by norm_num)
  have e : ((((2 : ℤ) ^ 24 - 2 ^ 10 : ℤ)) : K) * 2 ^ (-27 : ℤ) = 1 / 2 ^ 3 - 1 / 2 ^ 17 := by
    rw [zpow_neg, show ((27 : ℤ)) = ((27 : ℕ) : ℤ) by norm_num, zpow_natCast]
    push_cast
    norm_num
  rwa [e] at h

/-- Attack with `a = 2^-12` toward `1/8` from `1/8 - 2^-17` in `float` arithmetic: the
increment `2^-29` is lost in the rounding of the sum and the envelope does not move. -/
theorem attack_stall_step :
    (sampleStepFloat (⟨1, 1 / 2, 4, 1 / 2 ^ 12, 1 / 2⟩ : Snapshot K)
      (1 / 2 ^ 3 - 1 / 2 ^ 17) 1).1 = 1 / 2 ^ 3 - 1 / 2 ^ 17 := by
  have hx : |(1 : K)| > (⟨1, 1 / 2, 4, 1 / 2 ^ 12, 1 / 2⟩ : Snapshot K).linearThreshold := by
    rw [abs_one]; norm_num
  rw [sampleStepFloat_attack _ _ _ hx]
  show toFloat (1 / 2 ^ 3 - 1 / 2 ^ 17 + toFloat (1 / 2 ^ 12 *
      toFloat (toFloat (toFloat (|(1 : K)| - 1 / 2) / 4) - (1 / 2 ^ 3 - 1 / 2 ^ 17))))
    = 1 / 2 ^ 3 - 1 / 2 ^ 17
  have hd : (1 : K) / 2 ^ 3 - (1 / 2 ^ 3 - 1 / 2 ^ 17) = 1 / 2 ^ 17 := by ring
  have hm : (1 / 2 ^ 12 : K) * (1 / 2 ^ 17) = 1 / 2 ^ 29 := by norm_num
  rw [attack_half_target, hd, toFloat_one_div_pow 17 (by norm_num), hm,
    toFloat_one_div_pow 29 (by norm_num)]
  exact toFloat_stall

theorem attack_stall_run (n : ℕ) :
    (processChannelFloat (⟨1, 1 / 2, 4, 1 / 2 ^ 12, 1 / 2⟩ : Snapshot K)
      (1 / 2 ^ 3 - 1 / 2 ^ 17) (List.replicate n 1)).1 = 1 / 2 ^ 3 - 1 / 2 ^ 17 := by
  induction n with
  | zero => simp [processChannelFloat]
  | succ n ih =>
      rw [processChannelFloat_replicate_snoc, ih]
      exact attack_stall_step

theorem le_toFloat_of_le (m z : ℤ) (h1 : (2 : ℤ) ^ 23 ≤ m) (h2 : m < (2 : ℤ) ^ 24)
    (hz : -149 ≤ z) {x : K} (h : (m : K) * 2 ^ z ≤ x) : (m : K) * 2 ^ z ≤ toFloat x := by
  have := toFloat_mono h
  rwa [toFloat_exact m z h1 h2 hz] at this

theorem toFloat_le_of_le (m z : ℤ) (h1 : (2 : ℤ) ^ 23 ≤ m) (h2 : m < (2 : ℤ) ^ 24)
    (hz : -149 ≤ z) {x : K} (h : x ≤ (m : K) * 2 ^ z) : toFloat x ≤ (m : K) * 2 ^ z := by
  have := toFloat_mono h
  rwa [toFloat_exact m z h1 h2 hz] at this

/-- One attack step in `float` arithmetic from a `float` envelope, with
`t = toFloat (toFloat (|x| - T) / ratio)` the target as the code computes it: the
envelope does not move away from `t`, stays at `t` once there, and is a `float` again. -/
theorem sampleStepFloat_attack_toward (p : Snapshot K) (e x : K)
    (h : |x| > p.linearThreshold) (ha : 0 ≤ p.attackCoeff) (hfl : toFloat e = e) :
    (e ≤ toFloat (toFloat (|x| - p.linearThreshold) / p.ratio) → e ≤ (sampleStepFloat p e x).1) ∧
    (toFloat (toFloat (|x| - p.linearThreshold) / p.ratio) ≤ e → (sampleStepFloat p e x).1 ≤ e) ∧
    (e = toFloat (toFloat (|x| - p.linearThreshold) / p.ratio) → (sampleStepFloat p e x).1 = e) ∧
    toFloat (sampleStepFloat p e x).1 = (sampleStepFloat p e x).1 := by
  rw [sampleStepFloat_attack p e x h]
  have up : e ≤ toFloat (toFloat (|x| - p.linearThreshold) / p.ratio) →
      e ≤ toFloat (e + toFloat (p.attackCoeff *
        toFloat (toFloat (toFloat (|x| - p.linearThreshold) / p.ratio) - e))) := by
    intro hle
    have h1 : 0 ≤ toFloat (toFloat (toFloat (|x| - p.linearThreshold) / p.ratio) - e) :=
      toFloat_nonneg (sub_nonneg.mpr hle)
    have h2 : 0 ≤ toFloat (p.attackCoeff *
        toFloat (toFloat (toFloat (|x| - p.linearThreshold) / p.ratio) - e)) :=
      toFloat_nonneg (mul_nonneg ha h1)
    have := toFloat_mono (show e ≤ e + toFloat (p.attackCoeff *
        toFloat (toFloat (toFloat (|x| - p.linearThreshold) / p.ratio) - e)) by linarith)
    rwa [hfl] at this
  have down : toFloat (toFloat (|x| - p.linearThreshold) / p.ratio) ≤ e →
      toFloat (e + toFloat (p.attackCoeff *
        toFloat (toFloat (toFloat (|x| - p.linearThreshold) / p.ratio) - e))) ≤ e := by
    intro hle
    have h1 : toFloat (toFloat (toFloat (|x| - p.linearThreshold) / p.ratio) - e) ≤ 0 :=
      toFloat_nonpos (sub_nonpos.mpr hle)
    have h2 : toFloat (p.attackCoeff *
        toFloat (toFloat (toFloat (|x| - p.linearThreshold) / p.ratio) - e)) ≤ 0 :=
      toFloat_nonpos (mul_nonpos_of_nonneg_of_nonpos ha h1)
    have := toFloat_mono (show e + toFloat (p.attackCoeff *
        toFloat (toFloat (toFloat (|x| - p.linearThreshold) / p.ratio) - e)) ≤ e by linarith)
    rwa [hfl] at this
  exact ⟨up, down, fun heq => le_antisymm (down heq.ge) (up heq.le), toFloat_idem _⟩

end RunLemmas

section Runs

variable {K : Type} [LinearOrderedField K] [FloorRing K]

/-- C5, counterexample. In `float` arithmetic, with `T = 1/2`, ratio 4 and samples of
magnitude 1, so that the target is `1/8`:
with `a = 1/2` and 25 samples from envelope 0 the envelope is exactly `1/8`, the 25th
update being a tie that rounds up to the target, where the closed form
`target + (1 - a)^25 * (e0 - target)` is `1/8 - 2^-28`;
with `a = 2^-12` from the `float` envelope `1/8 - 2^-17` the envelope is `1/8 - 2^-17`
after every number of samples: it differs from the closed form after one sample,
`1/8 - (1 - 2^-12) * 2^-17`, and stays `2^-17` away from the target, so it does not
converge to `(M - T) / ratio`. -/
theorem attack_steady_state_float_counterexample :
    |(1 : ℚ)| > 1 / 2 ∧
    (processChannelFloat (K := ℚ) ⟨1, 1 / 2, 4, 1 / 2, 1 / 2⟩ 0 (List.replicate 25 1)).1 = 1 / 8 ∧
    ((|(1 : ℚ)| - 1 / 2) / 4 + (1 - 1 / 2) ^ 25 * (0 - (|(1 : ℚ)| - 1 / 2) / 4)
      = 1 / 8 - 1 / 2 ^ 28) ∧
    (1 / 8 : ℚ) ≠ 1 / 8 - 1 / 2 ^ 28 ∧
    ((0 : ℚ) < 1 / 2 ^ 12 ∧ (1 / 2 ^ 12 : ℚ) ≤ 1) ∧
    toFloat (1 / 8 - 1 / 2 ^ 17 : ℚ) = 1 / 8 - 1 / 2 ^ 17 ∧
    (∀ n : ℕ,
      (processChannelFloat (K := ℚ) ⟨1, 1 / 2, 4, 1 / 2 ^ 12, 1 / 2⟩ (1 / 8 - 1 / 2 ^ 17)
        (List.replicate n 1)).1 = 1 / 8 - 1 / 2 ^ 17) ∧
    ((|(1 : ℚ)| - 1 / 2) / 4
        + (1 - 1 / 2 ^ 12) ^ 1 * ((1 / 8 - 1 / 2 ^ 17) - (|(1 : ℚ)| - 1 / 2) / 4)
      ≠ 1 / 8 - 1 / 2 ^ 17) ∧
    (|(1 : ℚ)| - 1 / 2) / 4 - (1 / 8 - 1 / 2 ^ 17) = 1 / 2 ^ 17 := by
  have h8 : (1 / 8 : ℚ) = 1 / 2 ^ 3 := by norm_num
  refine ⟨by norm_num, ?_, by norm_num [abs_one], by norm_num, by norm_num, ?_, ?_,
    by norm_num [abs_one], by norm_num [abs_one]⟩
  · rw [processChannelFloat_replicate_snoc, attack_half_run 24 le_rfl]
    have := attack_half_tie (K := ℚ)
    norm_num at this ⊢
    exact this
  · rw [h8]; exact toFloat_stall_point
  · intro n
    rw [h8]; exact attack_stall_run n

/-- C5, as amended. Steady state under sustained input, in `float` arithmetic.  For a
stream whose samples all have magnitude `M > T`, write `t` for the target as the loop
computes it, `toFloat (toFloat (M - T) / ratio)`.  From a `float` envelope and with
`a > 0`, at every sample an envelope at or below `t` does not decrease, one at or above
`t` does not increase, and an envelope equal to `t` stays at `t` for every later
sample; above the threshold the magnitude before the gain stage is then
`toFloat (T + t)` for `T > 0`.  For `M = 1`, ratio 4 and a threshold in
`(0.50118, 0.50119)`, where `10^(-6/20)` lies, `t` is in `(0.1247, 0.1248)` and
`toFloat (T + t)` in `(0.6258, 0.6260)`. -/
theorem attack_steady_state_float :
    (∀ (p : Snapshot K) (e0 M : K) (x : ℕ → K),
      (∀ i, |x i| = M) → M > p.linearThreshold → 0 < p.attackCoeff → toFloat e0 = e0 →
      ∀ n,
        ((processChannelFloat p e0 ((List.range n).map x)).1
            ≤ toFloat (toFloat (M - p.linearThreshold) / p.ratio) →
          (processChannelFloat p e0 ((List.range n).map x)).1
            ≤ (processChannelFloat p e0 ((List.range (n + 1)).map x)).1) ∧
        (toFloat (toFloat (M - p.linearThreshold) / p.ratio)
            ≤ (processChannelFloat p e0 ((List.range n).map x)).1 →
          (processChannelFloat p e0 ((List.range (n + 1)).map x)).1
            ≤ (processChannelFloat p e0 ((List.range n).map x)).1) ∧
        ((processChannelFloat p e0 ((List.range n).map x)).1
            = toFloat (toFloat (M - p.linearThreshold) / p.ratio) →
          ∀ m, (processChannelFloat p e0 ((List.range (n + m)).map x)).1
            = toFloat (toFloat (M - p.linearThreshold) / p.ratio))) ∧
    (∀ (p : Snapshot K) (x : K), |x| > p.linearThreshold → 0 < p.linearThreshold →
      1 ≤ p.ratio →
      |(compressSampleFloat p (toFloat (toFloat (|x| - p.linearThreshold) / p.ratio)) x).2|
        = toFloat (p.linearThreshold
            + toFloat (toFloat (|x| - p.linearThreshold) / p.ratio))) ∧
    (50118 / 100000 < decibelsToGain (-6) ∧ decibelsToGain (-6) < 50119 / 100000) ∧
    (∀ T : ℝ, 50118 / 100000 < T → T < 50119 / 100000 →
      (1247 / 10000 < toFloat (toFloat (|(1 : ℝ)| - T) / 4) ∧
        toFloat (toFloat (|(1 : ℝ)| - T) / 4) < 1248 / 10000) ∧
      (6258 / 10000 < toFloat (T + toFloat (toFloat (|(1 : ℝ)| - T) / 4)) ∧
        toFloat (T + toFloat (toFloat (|(1 : ℝ)| - T) / 4)) < 6260 / 10000)) := by
  refine ⟨?_, ?_, decibelsToGain_neg_six_bounds, ?_⟩
  · intro p e0 M x hM hMT ha hfl
    have hx : ∀ i, |x i| > p.linearThreshold := fun i => by rw [hM i]; exact hMT
    have hfloat : ∀ n, toFloat (processChannelFloat p e0 ((List.range n).map x)).1
        = (processChannelFloat p e0 ((List.range n).map x)).1 := by
      intro n
      induction n with
      | zero => exact hfl
      | succ n ih =>
          rw [processChannelFloat_range_succ]
          exact (sampleStepFloat_attack_toward p _ (x n) (hx n) ha.le ih).2.2.2
    intro n
    have hstep := sampleStepFloat_attack_toward p _ (x n) (hx n) ha.le (hfloat n)
    rw [hM n] at hstep
    refine ⟨?_, ?_, ?_⟩
    · intro h
      rw [processChannelFloat_range_succ]
      exact hstep.1 h
    · intro h
      rw [processChannelFloat_range_succ]
      exact hstep.2.1 h
    · intro h m
      induction m with
      | zero => exact h
      | succ m ih =>
          rw [← add_assoc, processChannelFloat_range_succ]
          have hs := sampleStepFloat_attack_toward p _ (x (n + m)) (hx (n + m)) ha.le
            (hfloat (n + m))
          rw [hM (n + m)] at hs
          rw [hs.2.2.1 ih, ih]
  · intro p x hx hT hratio
    have ht : 0 ≤ toFloat (toFloat (|x| - p.linearThreshold) / p.ratio) :=
      toFloat_nonneg (div_nonneg (toFloat_nonneg (sub_pos.mpr hx).le) (by linarith))
    have hpos : 0 ≤ toFloat (p.linearThreshold
        + toFloat (toFloat (|x| - p.linearThreshold) / p.ratio)) :=
      toFloat_nonneg (by linarith)
    simp only [compressSampleFloat, if_pos hx, sub_self, toFloat_zero, mul_zero, add_zero,
      toFloat_idem]
    split_ifs
    · exact abs_of_nonneg hpos
    · rw [abs_neg]; exact abs_of_nonneg hpos
  · intro T hT1 hT2
    have habs : |(1 : ℝ)| = 1 := abs_one
    rw [habs]
    have hz27 : (2 : ℝ) ^ (-27 : ℤ) = 1 / 2 ^ 27 := by
      rw [zpow_neg, show ((27 : ℤ)) = ((27 : ℕ) : ℤ) by norm_num, zpow_natCast, one_div]
    have hz25 : (2 : ℝ) ^ (-25 : ℤ) = 1 / 2 ^ 25 := by
      rw [zpow_neg, show ((25 : ℤ)) = ((25 : ℕ) : ℤ) by norm_num, zpow_natCast, one_div]
    have hz24 : (2 : ℝ) ^ (-24 : ℤ) = 1 / 2 ^ 24 := by
      rw [zpow_neg, show ((24 : ℤ)) = ((24 : ℕ) : ℤ) by norm_num, zpow_natCast, one_div]
    -- toFloat (1 - T) lies between the floats 16737286 * 2^-25 and 16737622 * 2^-25
    have hd1 : ((16737286 : ℤ) : ℝ) * 2 ^ (-25 : ℤ) ≤ toFloat (1 - T) :=
      le_toFloat_of_le 16737286 (-25) (by norm_num) (by norm_num) (by norm_num)
        (by rw [hz25]; push_cast; norm_num; linarith)
    have hd2 : toFloat (1 - T) ≤ ((16737622 : ℤ) : ℝ) * 2 ^ (-25 : ℤ) :=
      toFloat_le_of_le 16737622 (-25) (by norm_num) (by norm_num) (by norm_num)
        (by rw [hz25]; push_cast; norm_num; linarith)
    -- the target t lies between 16737286 * 2^-27 and 16737622 * 2^-27
    have ht1 : ((16737286 : ℤ) : ℝ) * 2 ^ (-27 : ℤ) ≤ toFloat (toFloat (1 - T) / 4) :=
      le_toFloat_of_le 16737286 (-27) (by norm_num) (by norm_num) (by norm_num)
        (by rw [hz27]; rw [hz25] at hd1; push_cast at hd1 ⊢; linarith)
    have ht2 : toFloat (toFloat (1 - T) / 4) ≤ ((16737622 : ℤ) : ℝ) * 2 ^ (-27 : ℤ) :=
      toFloat_le_of_le 16737622 (-27) (by norm_num) (by norm_num) (by norm_num)
        (by rw [hz27]; rw [hz25] at hd2; push_cast at hd2 ⊢; linarith)
    rw [hz27] at ht1 ht2
    push_cast at ht1 ht2
    -- T + t lies between the floats 10500565 * 2^-24 and 10500776 * 2^-24
    have ho1 : ((10500565 : ℤ) : ℝ) * 2 ^ (-24 : ℤ) ≤ toFloat (T + toFloat (toFloat (1 - T) / 4)) :=
      le_toFloat_of_le 10500565 (-24) (by norm_num) (by norm_num) (by norm_num)
        (by rw [hz24]; push_cast; linarith)
    have ho2 : toFloat (T + toFloat (toFloat (1 - T) / 4)) ≤ ((10500776 : ℤ) : ℝ) * 2 ^ (-24 : ℤ) :=
      toFloat_le_of_le 10500776 (-24) (by norm_num) (by norm_num) (by norm_num)
        (by rw [hz24]; push_cast; linarith)
    rw [hz24] at ho1 ho2
    push_cast at ho1 ho2
    refine ⟨⟨by linarith, by linarith⟩, ⟨by linarith, by linarith⟩⟩

/-- Witness for the amended C5 over `ℚ`: `T = 1/2`, ratio 4, `a = 1/2`, samples of
magnitude 1 from envelope 0; the envelope `0` is below the target `1/8`, so the first
sample does not lower it. -/
theorem attack_steady_state_float_witness :
    (processChannelFloat (K := ℚ) ⟨1, 1 / 2, 4, 1 / 2, 1 / 2⟩ 0 ((List.range 0).map fun _ => 1)).1
      ≤ (processChannelFloat (K := ℚ) ⟨1, 1 / 2, 4, 1 / 2, 1 / 2⟩ 0
          ((List.range (0 + 1)).map fun _ => 1)).1 :=
  ((attack_steady_state_float (K := ℚ)).1 ⟨1, 1 / 2, 4, 1 / 2, 1 / 2⟩ 0 1 (fun _ => 1)
    (fun _ => abs_one) (by norm_num) (by norm_num) toFloat_zero 0).1
    (by
      show (0 : ℚ) ≤ toFloat (toFloat (1 - 1 / 2) / 4)
      exact toFloat_nonneg (div_nonneg (toFloat_nonneg (by norm_num)) (by norm_num)))

/-- C6, counterexample. In `float` arithmetic with denormals flushed, release with
`r = 1/2` from envelope 1 over samples of magnitude `0 ≤ T = 1/2` halves the envelope
126 times and then stays at `2^-126` for ever: after 127 samples it is `2^-126`, not
`(1 - r)^127 * 1 = 2^-127`, and it does not decay toward 0. -/
theorem release_decay_float_counterexample :
    |(0 : ℚ)| ≤ 1 / 2 ∧ (0 : ℚ) ≤ 1 ∧ toFloat (1 : ℚ) = 1 ∧
    (processChannelFloat (K := ℚ) ⟨1, 1 / 2, 1, 1 / 2, 1 / 2⟩ 1 (List.replicate 127 0)).1
      = 1 / 2 ^ 126 ∧
    (1 / 2 ^ 126 : ℚ) ≠ (1 - 1 / 2) ^ 127 * 1 ∧
    (∀ n : ℕ, 126 ≤ n →
      (processChannelFloat (K := ℚ) ⟨1, 1 / 2, 1, 1 / 2, 1 / 2⟩ 1 (List.replicate n 0)).1
        = 1 / 2 ^ 126) := by
  refine ⟨by norm_num, by norm_num, toFloat_one, release_half_stuck_run 1, by norm_num, ?_⟩
  intro n hn
  obtain ⟨k, rfl⟩ : ∃ k, n = 126 + k := ⟨n - 126, by omega⟩
  exact release_half_stuck_run k

/-- C6, as amended. Release is monotone and never negative.  Over a run of samples with
magnitude `≤ T`, from a non-negative envelope and with `0 < r ≤ 1`, every step satisfies
`envelope (n+1) ≤ envelope n` and the envelope is never negative: in `float` arithmetic
(the envelope being a `float`) and in exact arithmetic alike. -/
theorem release_monotone_nonneg :
    (∀ (p : Snapshot K) (e0 : K) (x : ℕ → K),
      (∀ i, |x i| ≤ p.linearThreshold) → 0 ≤ e0 → toFloat e0 = e0 →
      0 < p.releaseCoeff → p.releaseCoeff ≤ 1 →
      ∀ n, (processChannelFloat p e0 ((List.range (n + 1)).map x)).1
            ≤ (processChannelFloat p e0 ((List.range n).map x)).1 ∧
          0 ≤ (processChannelFloat p e0 ((List.range n).map x)).1) ∧
    (∀ (p : Snapshot K) (e0 : K) (x : ℕ → K),
      (∀ i, |x i| ≤ p.linearThreshold) → 0 ≤ e0 →
      0 < p.releaseCoeff → p.releaseCoeff ≤ 1 →
      ∀ n, (processChannel p e0 ((List.range (n + 1)).map x)).1
            ≤ (processChannel p e0 ((List.range n).map x)).1 ∧
          0 ≤ (processChannel p e0 ((List.range n).map x)).1) := by
  constructor
  · intro p e0 x hx he0 hfl hr0 _
    have inv : ∀ n, 0 ≤ (processChannelFloat p e0 ((List.range n).map x)).1 ∧
        toFloat (processChannelFloat p e0 ((List.range n).map x)).1
          = (processChannelFloat p e0 ((List.range n).map x)).1 := by
      intro n
      induction n with
      | zero => exact ⟨he0, hfl⟩
      | succ n ih =>
          rw [processChannelFloat_range_succ]
          have := sampleStepFloat_release_bounds p _ (x n) (hx n) ih.1 ih.2 hr0.le
          exact ⟨this.1, this.2.2⟩
    intro n
    refine ⟨?_, (inv n).1⟩
    rw [processChannelFloat_range_succ]
    exact (sampleStepFloat_release_bounds p _ (x n) (hx n) (inv n).1 (inv n).2 hr0.le).2.1
  · intro p e0 x hx he0 hr0 _
    have inv : ∀ n, 0 ≤ (processChannel p e0 ((List.range n).map x)).1 := by
      intro n
      induction n with
      | zero => exact he0
      | succ n _ =>
          rw [processChannel_range_succ]
          simp only [sampleStep, compressSample_release p _ (x n) (hx n)]
          exact le_max_right _ _
    intro n
    refine ⟨?_, inv n⟩
    rw [processChannel_range_succ]
    simp only [sampleStep, compressSample_release p _ (x n) (hx n)]
    have := mul_nonneg hr0.le (inv n)
    exact max_le (by linarith) (inv n)

/-- Witness for the amended C6 over `ℚ`: `T = 1/2`, `r = 1/2`, envelope 1, quiet
samples; the first step in `float` arithmetic does not raise the envelope. -/
theorem release_monotone_nonneg_witness :
    (processChannelFloat (K := ℚ) ⟨1, 1 / 2, 1, 1 / 2, 1 / 2⟩ 1
        ((List.range (0 + 1)).map fun _ => 0)).1
      ≤ (processChannelFloat (K := ℚ) ⟨1, 1 / 2, 1, 1 / 2, 1 / 2⟩ 1
        ((List.range 0).map fun _ => 0)).1 ∧
    0 ≤ (processChannelFloat (K := ℚ) ⟨1, 1 / 2, 1, 1 / 2, 1 / 2⟩ 1
        ((List.range 0).map fun _ => 0)).1 :=
  (release_monotone_nonneg (K := ℚ)).1 ⟨1, 1 / 2, 1, 1 / 2, 1 / 2⟩ 1 (fun _ => 0)
    (fun _ => by norm_num) (by norm_num) toFloat_one (by norm_num) (by norm_num) 0

end Runs

/-! ## The coefficient mapper -/

section MapperLemmas

/-- A number in `(1 - 2^-54, 1]` rounds to the `double` 1. -/
theorem toDouble_near_one (y : ℝ) (h1 : 1 - 1 / 2 ^ 54 < y) (h2 : y ≤ 1) : toDouble y = 1 := by
  rcases eq_or_lt_of_le h2 with heq | hlt
  · rw [heq]; exact toDouble_one
  · have hpos : (0 : ℝ) < y := by
      have : (0 : ℝ) < 1 - 1 / 2 ^ 54 := by norm_num
      linarith
    have hlo : (2 : ℝ) ^ (-1 : ℤ) ≤ y := by
      rw [zpow_neg, zpow_one]
      have : (2 : ℝ)⁻¹ ≤ 1 - 1 / 2 ^ 54 := by norm_num
      linarith
    have hhi : y < (2 : ℝ) ^ ((-1 : ℤ) + 1) := by
      rw [show ((-1 : ℤ) + 1) = 0 by norm_num, zpow_zero]; exact hlt
    have hu : (2 : ℝ) ^ ((-1 : ℤ) - (((53 : ℕ) : ℤ) - 1)) = 1 / 2 ^ 53 := by
      rw [show ((-1 : ℤ) - (((53 : ℕ) : ℤ) - 1)) = -((53 : ℕ) : ℤ) by norm_num, zpow_neg,
        zpow_natCast, one_div]
    have hr : roundHalfEven (y / (1 / 2 ^ 53)) = (2 : ℤ) ^ 53 := by
      apply roundHalfEven_eq_of_near
      · push_cast
        rw [div_div_eq_mul_div, div_one]
        have : (1 - 1 / 2 ^ 54) * (2 : ℝ) ^ 53 = 2 ^ 53 - 1 / 2 := by norm_num
        nlinarith
      · push_cast
        rw [div_div_eq_mul_div, div_one]
        nlinarith
    have hmag : roundMagnitude 53 y = 1 := by
      rw [roundMagnitude_eq 53 (-1) hlo hhi, hu, hr]
      push_cast
      norm_num
    unfold toDouble roundIeee
    rw [if_pos hpos, hmag]
    unfold flushToZero
    rw [if_neg]
    rw [not_lt]
    exact zpow_le_one_of_nonpos₀ (by norm_num) (by norm_num)

theorem stdExp_mono {x y : ℝ} (h : x ≤ y) : stdExp x ≤ stdExp y :=
  toDouble_mono (Real.exp_le_exp.mpr h)

theorem stdExp_nonneg (x : ℝ) : 0 ≤ stdExp x :=
  toDouble_nonneg (Real.exp_pos x).le

theorem stdExp_le_one {x : ℝ} (h : x ≤ 0) : stdExp x ≤ 1 := by
  have := toDouble_mono (Real.exp_le_one_iff.mpr h)
  rwa [toDouble_one] at this

theorem calculateReleaseFloat_eq_calculateAttackFloat :
    calculateReleaseCoefficientFloat = calculateAttackCoefficientFloat := rfl

/-- The mapper on a positive divisor that did not overflow: the main branch, a value
in `[0, 1]`. -/
theorem coefficientFloat_of_pos_divisor (ms sr : ℝ)
    (hd : 0 < toDouble (toFloat (ms / 1000) * sr))
    (hbig : toDouble (toFloat (ms / 1000) * sr) < 2 ^ 1024) :
    calculateAttackCoefficientFloat ms sr
      = some (toFloat (toDouble
          (1 - stdExp (toDouble (-1 / toDouble (toFloat (ms / 1000) * sr)))))) ∧
    0 ≤ toFloat (toDouble (1 - stdExp (toDouble (-1 / toDouble (toFloat (ms / 1000) * sr))))) ∧
    toFloat (toDouble (1 - stdExp (toDouble (-1 / toDouble (toFloat (ms / 1000) * sr))))) ≤ 1 := by
  have hq : toDouble (-1 / toDouble (toFloat (ms / 1000) * sr)) ≤ 0 :=
    toDouble_nonpos (div_nonpos_of_nonpos_of_nonneg (by norm_num) hd.le)
  have hE0 := stdExp_nonneg (toDouble (-1 / toDouble (toFloat (ms / 1000) * sr)))
  have hE1 := stdExp_le_one hq
  have hs0 : 0 ≤ toDouble (1 - stdExp (toDouble (-1 / toDouble (toFloat (ms / 1000) * sr)))) :=
    toDouble_nonneg (by linarith)
  have hs1 : toDouble (1 - stdExp (toDouble (-1 / toDouble (toFloat (ms / 1000) * sr)))) ≤ 1 := by
    have := toDouble_mono (show 1 - stdExp (toDouble (-1 / toDouble (toFloat (ms / 1000) * sr)))
      ≤ 1 by linarith)
    rwa [toDouble_one] at this
  have hr0 := toFloat_nonneg hs0
  have hr1 : toFloat (toDouble
      (1 - stdExp (toDouble (-1 / toDouble (toFloat (ms / 1000) * sr))))) ≤ 1 := by
    have := toFloat_mono hs1
    rwa [toFloat_one] at this
  refine ⟨?_, hr0, hr1⟩
  unfold calculateAttackCoefficientFloat
  have h1 : ¬ (toDouble (toFloat (ms / 1000) * sr) = 0) := hd.ne'
  have h2 : ¬ ((2 : ℝ) ^ 1024 ≤ |toDouble (toFloat (ms / 1000) * sr)|) := by
    rw [abs_of_pos hd]; exact not_le.mpr hbig
  have h3 : ¬ ((2 : ℝ) ^ 1024
      ≤ stdExp (toDouble (-1 / toDouble (toFloat (ms / 1000) * sr)))) := by
    have : (1 : ℝ) < 2 ^ 1024 := one_lt_pow₀ (by norm_num) (by norm_num)
    exact not_le.mpr (by linarith)
  have h4 : ¬ ((2 : ℝ) ^ 128 ≤ |toFloat (toDouble
      (1 - stdExp (toDouble (-1 / toDouble (toFloat (ms / 1000) * sr)))))|) := by
    rw [abs_of_nonneg hr0]
    have : (1 : ℝ) < 2 ^ 128 := one_lt_pow₀ (by norm_num) (by norm_num)
    exact not_le.mpr (by linarith)
  simp only [h1, h2, h3, h4, if_false]

/-- For a positive time constant and sample rate the mapper returns a float in `[0, 1]`. -/
theorem coefficientFloat_range (ms sr : ℝ) (hms : 0 < ms) (hsr : 0 < sr) :
    ∃ c, calculateAttackCoefficientFloat ms sr = some c ∧ 0 ≤ c ∧ c ≤ 1 := by
  have ht : 0 ≤ toFloat (ms / 1000) := toFloat_nonneg (by positivity)
  have hd : 0 ≤ toDouble (toFloat (ms / 1000) * sr) := toDouble_nonneg (mul_nonneg ht hsr.le)
  rcases eq_or_lt_of_le hd with h0 | hpos
  · refine ⟨1, ?_, by norm_num, le_rfl⟩
    unfold calculateAttackCoefficientFloat
    have hiff : (ms < 0 ↔ sr < 0) := ⟨fun h => absurd h (not_lt.mpr hms.le),
      fun h => absurd h (not_lt.mpr hsr.le)⟩
    simp only [← h0, if_true, hiff]
  · rcases lt_or_le (toDouble (toFloat (ms / 1000) * sr)) (2 ^ 1024) with hb | hb
    · obtain ⟨h1, h2, h3⟩ := coefficientFloat_of_pos_divisor ms sr hpos hb
      exact ⟨_, h1, h2, h3⟩
    · refine ⟨0, ?_, le_rfl, by norm_num⟩
      unfold calculateAttackCoefficientFloat
      have h1 : ¬ (toDouble (toFloat (ms / 1000) * sr) = 0) := hpos.ne'
      have h2 : (2 : ℝ) ^ 1024 ≤ |toDouble (toFloat (ms / 1000) * sr)| := by
        rw [abs_of_pos hpos]; exact hb
      simp only [h1, h2, if_false, if_true]

/-- For a long time constant the exponent is so close to 0 that `std::exp` returns 1
and the mapper returns exactly 0. -/
theorem coefficientFloat_eq_zero_of_large (ms sr : ℝ)
    (h1 : (2 : ℝ) ^ 39 ≤ ms / 1000) (h2 : ms / 1000 ≤ (2 : ℝ) ^ 100)
    (h3 : (2 : ℝ) ^ 15 ≤ sr) (h4 : sr ≤ (2 : ℝ) ^ 100) :
    calculateAttackCoefficientFloat ms sr = some 0 := by
  have z39 : (2 : ℝ) ^ (39 : ℤ) = 2 ^ 39 := by norm_cast
  have z100 : (2 : ℝ) ^ (100 : ℤ) = 2 ^ 100 := by norm_cast
  have z54 : (2 : ℝ) ^ (54 : ℤ) = 2 ^ 54 := by norm_cast
  have z200 : (2 : ℝ) ^ (200 : ℤ) = 2 ^ 200 := by norm_cast
  have ht1 : (2 : ℝ) ^ 39 ≤ toFloat (ms / 1000) := by
    have := toFloat_mono h1
    rwa [← z39, toFloat_two_zpow 39 (by norm_num), z39] at this
  have ht2 : toFloat (ms / 1000) ≤ (2 : ℝ) ^ 100 := by
    have := toFloat_mono h2
    rwa [← z100, toFloat_two_zpow 100 (by norm_num), z100] at this
  have hsr0 : (0 : ℝ) < sr := lt_of_lt_of_le (by positivity) h3
  have ht0 : (0 : ℝ) < toFloat (ms / 1000) := lt_of_lt_of_le (by positivity) ht1
  have hp1 : (2 : ℝ) ^ 54 ≤ toFloat (ms / 1000) * sr := by
    calc (2 : ℝ) ^ 54 = 2 ^ 39 * 2 ^ 15 := by norm_num
      _ ≤ toFloat (ms / 1000) * sr := mul_le_mul ht1 h3 (by positivity) ht0.le
  have hp2 : toFloat (ms / 1000) * sr ≤ (2 : ℝ) ^ 200 := by
    calc toFloat (ms / 1000) * sr ≤ 2 ^ 100 * 2 ^ 100 := mul_le_mul ht2 h4 hsr0.le (by positivity)
      _ = (2 : ℝ) ^ 200 := by norm_num
  have hd1 : (2 : ℝ) ^ 54 ≤ toDouble (toFloat (ms / 1000) * sr) := by
    have := toDouble_mono hp1
    rwa [← z54, toDouble_two_zpow 54 (by norm_num), z54] at this
  have hd2 : toDouble (toFloat (ms / 1000) * sr) ≤ (2 : ℝ) ^ 200 := by
    have := toDouble_mono hp2
    rwa [← z200, toDouble_two_zpow 200 (by norm_num), z200] at this
  have hd0 : (0 : ℝ) < toDouble (toFloat (ms / 1000) * sr) := lt_of_lt_of_le (by positivity) hd1
  have hbig : toDouble (toFloat (ms / 1000) * sr) < (2 : ℝ) ^ 1024 :=
    lt_of_le_of_lt hd2 (pow_lt_pow_right₀ (by norm_num) (by norm_num))
  -- the quotient lies in [-2^-54, -2^-200]
  have zm54 : (2 : ℝ) ^ (-54 : ℤ) = 1 / 2 ^ 54 := by
    rw [zpow_neg, show ((54 : ℤ)) = ((54 : ℕ) : ℤ) by norm_num, zpow_natCast, one_div]
  have zm200 : (2 : ℝ) ^ (-200 : ℤ) = 1 / 2 ^ 200 := by
    rw [zpow_neg, show ((200 : ℤ)) = ((200 : ℕ) : ℤ) by norm_num, zpow_natCast, one_div]
  have hq1 : -(1 / 2 ^ 54) ≤ toDouble (-1 / toDouble (toFloat (ms / 1000) * sr)) := by
    have hle : -((2 : ℝ) ^ (-54 : ℤ)) ≤ -1 / toDouble (toFloat (ms / 1000) * sr) := by
      rw [zm54, neg_div, neg_le_neg_iff]
      exact one_div_le_one_div_of_le (by positivity) hd1
    have := toDouble_mono hle
    rwa [toDouble_neg, toDouble_two_zpow (-54) (by norm_num), zm54] at this
  have hq2 : toDouble (-1 / toDouble (toFloat (ms / 1000) * sr)) ≤ -(1 / 2 ^ 200) := by
    have hle : -1 / toDouble (toFloat (ms / 1000) * sr) ≤ -((2 : ℝ) ^ (-200 : ℤ)) := by
      rw [zm200, neg_div, neg_le_neg_iff]
      exact one_div_le_one_div_of_le hd0 hd2
    have := toDouble_mono hle
    rwa [toDouble_neg, toDouble_two_zpow (-200) (by norm_num), zm200] at this
  have hqne : toDouble (-1 / toDouble (toFloat (ms / 1000) * sr)) ≠ 0 := by
    have : (0 : ℝ) < 1 / 2 ^ 200 := by positivity
    linarith
  have hqneg : toDouble (-1 / toDouble (toFloat (ms / 1000) * sr)) ≤ 0 := by
    have : (0 : ℝ) < 1 / 2 ^ 200 := by positivity
    linarith
  -- so its exponential rounds to 1
  have hexp1 : 1 - 1 / 2 ^ 54
      < Real.exp (toDouble (-1 / toDouble (toFloat (ms / 1000) * sr))) := by
    have := Real.add_one_lt_exp hqne
    linarith
  have hexp2 : Real.exp (toDouble (-1 / toDouble (toFloat (ms / 1000) * sr))) ≤ 1 :=
    Real.exp_le_one_iff.mpr hqneg
  have hE : stdExp (toDouble (-1 / toDouble (toFloat (ms / 1000) * sr))) = 1 :=
    toDouble_near_one _ hexp1 hexp2
  obtain ⟨hval, -, -⟩ := coefficientFloat_of_pos_divisor ms sr hd0 hbig
  rw [hval, hE, sub_self, toDouble_zero, toFloat_zero]

/-- A longer positive time constant never gives a larger coefficient. -/
theorem coefficientFloat_antitone (sr ms1 ms2 : ℝ) (hsr : 0 < sr) (h1 : 0 < ms1)
    (h12 : ms1 ≤ ms2) :
    ∃ c1 c2, calculateAttackCoefficientFloat ms1 sr = some c1 ∧
      calculateAttackCoefficientFloat ms2 sr = some c2 ∧ c2 ≤ c1 := by
  have h2 : 0 < ms2 := lt_of_lt_of_le h1 h12
  obtain ⟨c1, hc1, hc10, hc11⟩ := coefficientFloat_range ms1 sr h1 hsr
  obtain ⟨c2, hc2, hc20, hc21⟩ := coefficientFloat_range ms2 sr h2 hsr
  refine ⟨c1, c2, hc1, hc2, ?_⟩
  have ht : toFloat (ms1 / 1000) ≤ toFloat (ms2 / 1000) :=
    toFloat_mono (div_le_div_of_nonneg_right h12 (by norm_num))
  have hd : toDouble (toFloat (ms1 / 1000) * sr) ≤ toDouble (toFloat (ms2 / 1000) * sr) :=
    toDouble_mono (mul_le_mul_of_nonneg_right ht hsr.le)
  have hd1 : 0 ≤ toDouble (toFloat (ms1 / 1000) * sr) :=
    toDouble_nonneg (mul_nonneg (toFloat_nonneg (by positivity)) hsr.le)
  rcases eq_or_lt_of_le hd1 with h0 | hpos1
  · -- the first divisor is zero: the first coefficient is 1
    have hiff : (ms1 < 0 ↔ sr < 0) := ⟨fun h => absurd h (not_lt.mpr h1.le),
      fun h => absurd h (not_lt.mpr hsr.le)⟩
    have : calculateAttackCoefficientFloat ms1 sr = some 1 := by
      unfold calculateAttackCoefficientFloat
      simp only [← h0, if_true, hiff]
    rw [this] at hc1
    simp only [Option.some.injEq] at hc1
    rw [← hc1]; exact hc21
  · have hpos2 : 0 < toDouble (toFloat (ms2 / 1000) * sr) := lt_of_lt_of_le hpos1 hd
    rcases lt_or_le (toDouble (toFloat (ms2 / 1000) * sr)) (2 ^ 1024) with hb2 | hb2
    · have hb1 : toDouble (toFloat (ms1 / 1000) * sr) < 2 ^ 1024 := lt_of_le_of_lt hd hb2
      obtain ⟨hv1, -, -⟩ := coefficientFloat_of_pos_divisor ms1 sr hpos1 hb1
      obtain ⟨hv2, -, -⟩ := coefficientFloat_of_pos_divisor ms2 sr hpos2 hb2
      rw [hv1] at hc1
      rw [hv2] at hc2
      simp only [Option.some.injEq] at hc1 hc2
      rw [← hc1, ← hc2]
      have hq : -1 / toDouble (toFloat (ms1 / 1000) * sr)
          ≤ -1 / toDouble (toFloat (ms2 / 1000) * sr) := by
        rw [neg_div, neg_div, neg_le_neg_iff]
        exact one_div_le_one_div_of_le hpos1 hd
      have hE := stdExp_mono (toDouble_mono hq)
      exact toFloat_mono (toDouble_mono (by linarith))
    · -- the second product overflowed: the second coefficient is 0
      have : calculateAttackCoefficientFloat ms2 sr = some 0 := by
        unfold calculateAttackCoefficientFloat
        have n1 : ¬ (toDouble (toFloat (ms2 / 1000) * sr) = 0) := hpos2.ne'
        have n2 : (2 : ℝ) ^ 1024 ≤ |toDouble (toFloat (ms2 / 1000) * sr)| := by
          rw [abs_of_pos hpos2]; exact hb2
        simp only [n1, n2, if_false, if_true]
      rw [this] at hc2
      simp only [Option.some.injEq] at hc2
      rw [← hc2]; exact hc10

/-- The number 999999986991104, the `float` nearest `10^15`, is a `float`. -/
theorem toFloat_1e15 : toFloat (999999986991104 : ℝ) = 999999986991104 := by
  have h := toFloat_exact (K := ℝ) 14901161 26 (by norm_num) (by norm_num) (by norm_num)
  have e : ((14901161 : ℤ) : ℝ) * 2 ^ (26 : ℤ) = 999999986991104 := by
    rw [show ((26 : ℤ)) = ((26 : ℕ) : ℤ) by norm_num, zpow_natCast]
    norm_num
  rwa [e] at h

/-- Twice that number is a `float` too. -/
theorem toFloat_2e15 : toFloat (1999999973982208 : ℝ) = 1999999973982208 := by
  have h := toFloat_exact (K := ℝ) 14901161 27 (by norm_num) (by norm_num) (by norm_num)
  have e : ((14901161 : ℤ) : ℝ) * 2 ^ (27 : ℤ) = 1999999973982208 := by
    rw [show ((27 : ℤ)) = ((27 : ℕ) : ℤ) by norm_num, zpow_natCast]
    norm_num
  rwa [e] at h

theorem coefficientFloat_1e15 :
    calculateAttackCoefficientFloat 999999986991104 44100 = some 0 :=
  coefficientFloat_eq_zero_of_large _ _ (by norm_num) (by norm_num) (by norm_num) (by norm_num)

theorem coefficientFloat_2e15 :
    calculateAttackCoefficientFloat 1999999973982208 44100 = some 0 :=
  coefficientFloat_eq_zero_of_large _ _ (by norm_num) (by norm_num) (by norm_num) (by norm_num)

end MapperLemmas

section Mapper

/-- C7, counterexample.  The number 999999986991104 is a `float` (the one nearest `10^15`).
At that time constant and 44100 Hz, both positive, `calculateAttackCoefficient` and
`calculateReleaseCoefficient` return exactly 0, which is not a value in `(0, 1]`; the
exact value of `1 - exp (-1 / ((ms / 1000) * sampleRate))` there is positive, so the
returned `float` is not that value either. -/
theorem coefficient_float_zero_counterexample :
    toFloat (999999986991104 : ℝ) = 999999986991104 ∧
    (0 : ℝ) < 999999986991104 ∧ (0 : ℝ) < 44100 ∧
    calculateAttackCoefficientFloat 999999986991104 44100 = some 0 ∧
    calculateReleaseCoefficientFloat 999999986991104 44100 = some 0 ∧
    ¬ (∃ c, calculateAttackCoefficientFloat 999999986991104 44100 = some c ∧ 0 < c ∧ c ≤ 1) ∧
    0 < 1 - Real.exp (-1 / ((999999986991104 : ℝ) / 1000 * 44100)) := by
  refine ⟨toFloat_1e15, by norm_num, by norm_num, coefficientFloat_1e15,
    coefficientFloat_1e15, ?_, ?_⟩
  · rintro ⟨c, hc, h0, -⟩
    rw [coefficientFloat_1e15] at hc
    have : (0 : ℝ) = c := Option.some.inj hc
    linarith
  · rw [sub_pos, Real.exp_lt_one_iff]
    norm_num

/-- C7, as amended.  `calculateAttackCoefficient` and `calculateReleaseCoefficient` are
the same function of their arguments.  For every `ms > 0` and `sampleRate > 0` they
return a finite `float` in the closed interval `[0, 1]`; when the product
`(ms / 1000) * sampleRate` neither underflows to zero nor overflows, that `float` is
`1 - exp (-1 / ((ms / 1000) * sampleRate))` evaluated with the source's roundings: the
division by 1000 in `float`, the product, the quotient, `exp` and the difference in
`double`, the result converted to `float`. -/
theorem coefficient_float_formula_and_range (ms sampleRate : ℝ)
    (hms : 0 < ms) (hsr : 0 < sampleRate) :
    calculateReleaseCoefficientFloat = calculateAttackCoefficientFloat ∧
    (∃ c, calculateAttackCoefficientFloat ms sampleRate = some c ∧
      calculateReleaseCoefficientFloat ms sampleRate = some c ∧ 0 ≤ c ∧ c ≤ 1) ∧
    (0 < toDouble (toFloat (ms / 1000) * sampleRate) →
      toDouble (toFloat (ms / 1000) * sampleRate) < 2 ^ 1024 →
      calculateAttackCoefficientFloat ms sampleRate
        = some (toFloat (toDouble
            (1 - stdExp (toDouble (-1 / toDouble (toFloat (ms / 1000) * sampleRate))))))) := by
  refine ⟨rfl, ?_, ?_⟩
  · obtain ⟨c, hc, h0, h1⟩ := coefficientFloat_range ms sampleRate hms hsr
    exact ⟨c, hc, hc, h0, h1⟩
  · intro hd hbig
    exact (coefficientFloat_of_pos_divisor ms sampleRate hd hbig).1

/-- Witness for the amended C7: a 10 ms time constant at 44100 Hz. -/
theorem coefficient_float_formula_and_range_witness :
    (0 : ℝ) < 10 ∧ (0 : ℝ) < 44100 ∧
    ∃ c, calculateAttackCoefficientFloat 10 44100 = some c ∧
      calculateReleaseCoefficientFloat 10 44100 = some c ∧ 0 ≤ c ∧ c ≤ 1 :=
  ⟨by norm_num, by norm_num,
    (coefficient_float_formula_and_range 10 44100 (by norm_num) (by norm_num)).2.1⟩

/-- C8, counterexample.  The time constants 999999986991104 and 1999999973982208 are two
different positive `float`s, the first smaller than the second; at 44100 Hz
`calculateAttackCoefficient` returns 0 for both, and so does
`calculateReleaseCoefficient`: the coefficient of the smaller is not greater. -/
theorem coefficient_float_not_strict_counterexample :
    toFloat (999999986991104 : ℝ) = 999999986991104 ∧
    toFloat (1999999973982208 : ℝ) = 1999999973982208 ∧
    (0 : ℝ) < 44100 ∧ (0 : ℝ) < 999999986991104 ∧
    (999999986991104 : ℝ) < 1999999973982208 ∧
    calculateAttackCoefficientFloat 999999986991104 44100 = some 0 ∧
    calculateAttackCoefficientFloat 1999999973982208 44100 = some 0 ∧
    calculateReleaseCoefficientFloat 999999986991104 44100 = some 0 ∧
    calculateReleaseCoefficientFloat 1999999973982208 44100 = some 0 ∧
    ¬ (∃ c1 c2, calculateAttackCoefficientFloat 999999986991104 44100 = some c1 ∧
        calculateAttackCoefficientFloat 1999999973982208 44100 = some c2 ∧ c1 > c2) := by
  refine ⟨toFloat_1e15, toFloat_2e15, by norm_num, by norm_num, by norm_num,
    coefficientFloat_1e15, coefficientFloat_2e15, coefficientFloat_1e15,
    coefficientFloat_2e15, ?_⟩
  rintro ⟨c1, c2, h1, h2, h⟩
  rw [coefficientFloat_1e15] at h1
  rw [coefficientFloat_2e15] at h2
  have e1 : (0 : ℝ) = c1 := Option.some.inj h1
  have e2 : (0 : ℝ) = c2 := Option.some.inj h2
  linarith

/-- C8, as amended.  Coefficient monotonicity: for every fixed `sampleRate > 0` and every
pair of time constants `0 < ms1 < ms2`, both calls return a finite `float` and
`calculateAttackCoefficient (ms1, sampleRate) ≥ calculateAttackCoefficient (ms2, sampleRate)`,
and likewise for `calculateReleaseCoefficient`: the coefficient is non-increasing in the
time constant (with `std::exp` returning the nearest `double`). -/
theorem coefficient_float_weakly_decreasing (sampleRate ms1 ms2 : ℝ)
    (hsr : 0 < sampleRate) (h1 : 0 < ms1) (h12 : ms1 < ms2) :
    (∃ c1 c2, calculateAttackCoefficientFloat ms1 sampleRate = some c1 ∧
      calculateAttackCoefficientFloat ms2 sampleRate = some c2 ∧ c1 ≥ c2) ∧
    (∃ c1 c2, calculateReleaseCoefficientFloat ms1 sampleRate = some c1 ∧
      calculateReleaseCoefficientFloat ms2 sampleRate = some c2 ∧ c1 ≥ c2) :=
  ⟨coefficientFloat_antitone sampleRate ms1 ms2 hsr h1 h12.le,
    coefficientFloat_antitone sampleRate ms1 ms2 hsr h1 h12.le⟩

/-- Witness for the amended C8: 10 ms and 20 ms at 44100 Hz. -/
theorem coefficient_float_weakly_decreasing_witness :
    (0 : ℝ) < 44100 ∧ (0 : ℝ) < 10 ∧ (10 : ℝ) < 20 ∧
    ∃ c1 c2, calculateAttackCoefficientFloat 10 44100 = some c1 ∧
      calculateAttackCoefficientFloat 20 44100 = some c2 ∧ c1 ≥ c2 :=
  ⟨by norm_num, by norm_num, by norm_num,
    (coefficient_float_weakly_decreasing 44100 10 20 (by norm_num) (by norm_num)
      (by norm_num)).1⟩

end Mapper

/-! ## Blocks -/

section Blocks

variable {K : Type} [LinearOrderedField K]

/-- C10. The envelope persists across blocks.  For a mono stream and unchanged
parameters, the sample loop run on block `A` and then, from the envelope it left, on
block `B` writes the same samples and leaves the same envelope as one run on `A ++ B`.
The same holds of whole `processBlock` calls on a processor with an input channel and
one-channel visualization buffers long enough for `A ++ B`: all three calls return,
the second starts from the envelope the first one stored, and nothing resets it. -/
theorem envelope_persists_across_blocks :
    (∀ (p : Snapshot K) (A B : List K) (e : K), ∃ (e1 e2 : K) (outA outB : List K),
      processChannels p e [A] = (e1, [outA]) ∧
      processChannels p e1 [B] = (e2, [outB]) ∧
      processChannels p e [A ++ B] = (e2, [outA ++ outB])) ∧
    (∀ (p : Snapshot K) (A B : List K) (st : Processor K) (vi vo : List K),
      0 < st.totalNumInputChannels → st.inputBuffer = [vi] → st.outputBuffer = [vo] →
      A.length + B.length ≤ vi.length → A.length + B.length ≤ vo.length →
      ∃ (st1 st2 st12 : Processor K) (outA outB : List K),
        processBlockWith p st [A] = some (st1, [outA]) ∧
        processBlockWith p st1 [B] = some (st2, [outB]) ∧
        processBlockWith p st [A ++ B] = some (st12, [outA ++ outB]) ∧
        st12.envelope = st2.envelope ∧
        outA.length = A.length ∧ outB.length = B.length) ∧
    (∀ (apvts : Parameters) (sampleRate : ℝ) (A B : List ℝ) (st : Processor ℝ) (vi vo : List ℝ),
      0 < st.totalNumInputChannels → st.inputBuffer = [vi] → st.outputBuffer = [vo] →
      A.length + B.length ≤ vi.length → A.length + B.length ≤ vo.length →
      ∃ (st1 st2 st12 : Processor ℝ) (outA outB : List ℝ),
        processBlock apvts sampleRate st [A] = some (st1, [outA]) ∧
        processBlock apvts sampleRate st1 [B] = some (st2, [outB]) ∧
        processBlock apvts sampleRate st [A ++ B] = some (st12, [outA ++ outB]) ∧
        st12.envelope = st2.envelope ∧
        outA.length = A.length ∧ outB.length = B.length) := by
  have loop : ∀ {F : Type} [LinearOrderedField F] (p : Snapshot F) (A B : List F) (e : F),
      ∃ (e1 e2 : F) (outA outB : List F),
        processChannels p e [A] = (e1, [outA]) ∧
        processChannels p e1 [B] = (e2, [outB]) ∧
        processChannels p e [A ++ B] = (e2, [outA ++ outB]) := by
    intro F _ p A B e
    refine ⟨(processChannel p e A).1, (processChannel p (processChannel p e A).1 B).1,
      (processChannel p e A).2, (processChannel p (processChannel p e A).1 B).2, ?_, ?_, ?_⟩
    · exact processChannels_single p e A
    · exact processChannels_single p _ B
    · rw [processChannels_single, processChannel_append]
  have block : ∀ {F : Type} [LinearOrderedField F] (p : Snapshot F) (A B : List F)
      (st : Processor F) (vi vo : List F),
      0 < st.totalNumInputChannels → st.inputBuffer = [vi] → st.outputBuffer = [vo] →
      A.length + B.length ≤ vi.length → A.length + B.length ≤ vo.length →
      ∃ (st1 st2 st12 : Processor F) (outA outB : List F),
        processBlockWith p st [A] = some (st1, [outA]) ∧
        processBlockWith p st1 [B] = some (st2, [outB]) ∧
        processBlockWith p st [A ++ B] = some (st12, [outA ++ outB]) ∧
        st12.envelope = st2.envelope ∧
        outA.length = A.length ∧ outB.length = B.length := by
    intro F _ p A B st vi vo hin hvi hvo hli hlo
    have hA := processBlockWith_single p st A vi vo hin hvi hvo (by omega) (by omega)
    have hAB := processBlockWith_single p st (A ++ B) vi vo hin hvi hvo
      (by rw [List.length_append]; exact hli) (by rw [List.length_append]; exact hlo)
    have hlenA := processChannel_length p st.envelope A
    have hB := processBlockWith_single p
      { st with
        inputBuffer := [A ++ vi.drop A.length]
        outputBuffer := [(processChannel p st.envelope A).2 ++ vo.drop A.length]
        envelope := (processChannel p st.envelope A).1 }
      B (A ++ vi.drop A.length) ((processChannel p st.envelope A).2 ++ vo.drop A.length)
      hin rfl rfl
      (by rw [List.length_append, List.length_drop]; omega)
      (by rw [List.length_append, List.length_drop, hlenA]; omega)
    have happ := processChannel_append p st.envelope A B
    refine ⟨_, _,
      { st with
        inputBuffer := [A ++ B ++ vi.drop (A ++ B).length]
        outputBuffer := [(processChannel p st.envelope (A ++ B)).2 ++ vo.drop (A ++ B).length]
        envelope := (processChannel p st.envelope (A ++ B)).1 },
      _, _, hA, hB, ?_, ?_, hlenA, processChannel_length p _ B⟩
    · rw [hAB]
      have h2 : (processChannel p st.envelope (A ++ B)).2 =
          (processChannel p st.envelope A).2 ++
            (processChannel p (processChannel p st.envelope A).1 B).2 := by
        rw [happ]
      rw [h2]
    · show (processChannel p st.envelope (A ++ B)).1 =
        (processChannel p (processChannel p st.envelope A).1 B).1
      rw [happ]
  refine ⟨loop, block, ?_⟩
  intro apvts sampleRate A B st vi vo hin hvi hvo hli hlo
  exact block (snapshot apvts sampleRate) A B st vi vo hin hvi hvo hli hlo

/-- Witness for C10 over `ℚ`: a freshly constructed processor prepared for blocks of
two samples, fed the one-sample blocks `[1]` and `[-1/4]`, against the block
`[1, -1/4]`. -/
theorem envelope_persists_across_blocks_witness :
    ∃ (st1 st2 st12 : Processor ℚ) (outA outB : List ℚ),
      processBlockWith ⟨2, 1 / 2, 1, 1 / 2, 1 / 2⟩
        (prepareToPlay Squeeze1AudioProcessor 44100 2 (fun _ _ => 7) (fun _ _ => 9)) [[1]]
          = some (st1, [outA]) ∧
      processBlockWith ⟨2, 1 / 2, 1, 1 / 2, 1 / 2⟩ st1 [[-(1 / 4)]] = some (st2, [outB]) ∧
      processBlockWith ⟨2, 1 / 2, 1, 1 / 2, 1 / 2⟩
        (prepareToPlay Squeeze1AudioProcessor 44100 2 (fun _ _ => 7) (fun _ _ => 9))
        [[1] ++ [-(1 / 4)]] = some (st12, [outA ++ outB]) ∧
      st12.envelope = st2.envelope ∧
      outA.length = [(1 : ℚ)].length ∧ outB.length = [(-(1 / 4) : ℚ)].length :=
  (envelope_persists_across_blocks (K := ℚ)).2.1 ⟨2, 1 / 2, 1, 1 / 2, 1 / 2⟩ [1] [-(1 / 4)]
    (prepareToPlay Squeeze1AudioProcessor 44100 2 (fun _ _ => 7) (fun _ _ => 9))
    [7, 7] [9, 9] (by decide) rfl rfl (by decide) (by decide)

end Blocks

/-! ## Helper lemmas on whole blocks -/

section BlockLemmas

variable {K : Type} [LinearOrderedField K]

theorem setSize_mono {F : Type} (b : AudioBuffer F) (n : ℕ) (fresh : ℕ → ℕ → F) :
    ∃ v : List F, b.setSize 1 n fresh = [v] ∧ v.length = n := by
  unfold AudioBuffer.setSize
  split_ifs with h
  · obtain ⟨h1, h2⟩ := h
    obtain ⟨v, hv⟩ := List.length_eq_one.mp h1
    subst hv
    exact ⟨v, rfl, h2⟩
  · exact ⟨(List.range n).map fun i => fresh 0 i, rfl, by simp⟩

theorem clearUnusedChannels_of_le (nin nout : ℕ) (h : nout ≤ nin) (i : ℕ) (b : AudioBuffer K) :
    clearUnusedChannels nin nout i b = b := by
  induction b generalizing i with
  | nil => rfl
  | cons c rest ih =>
      have hc : ¬ (nin ≤ i ∧ i < nout) := by omega
      simp only [clearUnusedChannels, if_neg hc, ih]

theorem clearUnusedChannels_cons_pos (nin nout : ℕ) (h : 0 < nin) (c : List K)
    (rest : AudioBuffer K) :
    clearUnusedChannels nin nout 0 (c :: rest) = c :: clearUnusedChannels nin nout 1 rest := by
  have hc : ¬ (nin ≤ 0 ∧ 0 < nout) := by omega
  simp only [clearUnusedChannels, if_neg hc, zero_add]

theorem clearUnusedChannels_zeros (nin nout i c N : ℕ) :
    clearUnusedChannels nin nout i (List.replicate c (List.replicate N (0 : K)))
      = List.replicate c (List.replicate N (0 : K)) := by
  induction c generalizing i with
  | zero => rfl
  | succ c ih =>
      simp only [List.replicate_succ, clearUnusedChannels, ih, List.length_replicate, ite_self]

theorem processChannel_zeros (p : Snapshot K) (hT : 0 ≤ p.linearThreshold) (N : ℕ) :
    processChannel p 0 (List.replicate N (0 : K)) = (0, List.replicate N (0 : K)) := by
  induction N with
  | zero => rfl
  | succ N ih =>
      have h0 : |(0 : K)| ≤ p.linearThreshold := by rw [abs_zero]; exact hT
      simp [List.replicate_succ, processChannel, sampleStep, compressSample_release p 0 0 h0, ih]

theorem processChannels_zeros (p : Snapshot K) (hT : 0 ≤ p.linearThreshold) (c N : ℕ) :
    processChannels p 0 (List.replicate c (List.replicate N (0 : K)))
      = (0, List.replicate c (List.replicate N (0 : K))) := by
  induction c with
  | zero => rfl
  | succ c ih =>
      simp [List.replicate_succ, processChannels, processChannel_zeros p hT N, ih]

theorem processChannels_empty (p : Snapshot K) (e : K) (c : ℕ) :
    processChannels p e (List.replicate c ([] : List K)) = (e, List.replicate c []) := by
  induction c with
  | zero => rfl
  | succ c ih => simp [List.replicate_succ, processChannels, processChannel, ih]

/-- `processBlockWith` when the block, after the clearing loop, is `c0 :: rest` and the
visualization buffers are one channel each, at least as long as the block: the call
returns, both buffers have their first `c0.length` samples overwritten, and the block
and the envelope are what the sample loop leaves. -/
theorem processBlockWith_of_clear (p : Snapshot K) (st : Processor K) (buffer : AudioBuffer K)
    (c0 : List K) (rest : AudioBuffer K) (vi vo : List K)
    (hclear : clearUnusedChannels st.totalNumInputChannels st.totalNumOutputChannels 0 buffer
      = c0 :: rest)
    (hvi : st.inputBuffer = [vi]) (hvo : st.outputBuffer = [vo])
    (hli : c0.length ≤ vi.length) (hlo : c0.length ≤ vo.length) :
    processBlockWith p st buffer =
      some ({ st with
              inputBuffer := [c0 ++ vi.drop c0.length]
              outputBuffer := [(processChannel p st.envelope c0).2 ++ vo.drop c0.length]
              envelope := (processChannels p st.envelope (c0 :: rest)).1 },
            (processChannels p st.envelope (c0 :: rest)).2) := by
  have hlen := processChannel_length p st.envelope c0
  have hc := copyFrom_single vo (processChannel p st.envelope c0).2 (by rw [hlen]; exact hlo)
  rw [hlen] at hc
  have hci : AudioBuffer.copyFrom [vi] (c0 :: rest) c0.length = some [c0 ++ vi.drop c0.length] := by
    have := copyFrom_single vi c0 hli
    unfold AudioBuffer.copyFrom at this ⊢
    exact this
  have hco : AudioBuffer.copyFrom [vo]
      ((processChannel p st.envelope c0).2 :: (processChannels p (processChannel p st.envelope c0).1 rest).2)
      c0.length = some [(processChannel p st.envelope c0).2 ++ vo.drop c0.length] := by
    unfold AudioBuffer.copyFrom at hc ⊢
    exact hc
  simp only [processBlockWith, hclear, hvi, hvo, AudioBuffer.getNumSamples, hci, processChannels,
    hlen, hco]

/-- Sample `i` of a processed channel is the step applied to sample `i` of the input
from the envelope left by the first `i` samples. -/
theorem processChannel_getElem_opt (p : Snapshot K) (e : K) (xs : List K) (i : ℕ) :
    (processChannel p e xs).2[i]? =
      xs[i]?.map (fun x => (sampleStep p (processChannel p e (xs.take i)).1 x).2) := by
  induction xs generalizing e i with
  | nil => simp [processChannel]
  | cons x xs ih =>
      cases i with
      | zero => simp [processChannel]
      | succ i => simp [processChannel, ih]

theorem processChannels_flatten (p : Snapshot K) (e : K) (b : AudioBuffer K) :
    (processChannels p e b).1 = (processChannel p e b.flatten).1 ∧
    (processChannels p e b).2.flatten = (processChannel p e b.flatten).2 ∧
    (processChannels p e b).2.map List.length = b.map List.length := by
  induction b generalizing e with
  | nil => simp [processChannels, processChannel]
  | cons c rest ih =>
      obtain ⟨h1, h2, h3⟩ := ih (processChannel p e c).1
      simp only [processChannels, List.flatten_cons, processChannel_append, List.map_cons,
        processChannel_length]
      exact ⟨h1, by rw [h2], by rw [h3]⟩

/-- One step keeps the envelope between 0 and any bound `M` that it respected before
and that the target of this sample, if the sample is above the threshold, respects. -/
theorem sampleStep_envelope_bounds (p : Snapshot K) (e x M : K)
    (hratio : 1 ≤ p.ratio) (ha0 : 0 < p.attackCoeff) (ha1 : p.attackCoeff ≤ 1)
    (hr0 : 0 < p.releaseCoeff) (he0 : 0 ≤ e) (heM : e ≤ M)
    (hx : |x| > p.linearThreshold → (|x| - p.linearThreshold) / p.ratio ≤ M) :
    0 ≤ (sampleStep p e x).1 ∧ (sampleStep p e x).1 ≤ M := by
  by_cases h : |x| > p.linearThreshold
  · have ht : 0 < (|x| - p.linearThreshold) / p.ratio :=
      div_pos (sub_pos.mpr h) (lt_of_lt_of_le one_pos hratio)
    have htM := hx h
    simp only [sampleStep, compressSample_attack p e x h]
    have h1 : 0 ≤ (1 - p.attackCoeff) * e := mul_nonneg (sub_nonneg.mpr ha1) he0
    have h2 : 0 < p.attackCoeff * ((|x| - p.linearThreshold) / p.ratio) := mul_pos ha0 ht
    have h3 : (1 - p.attackCoeff) * e ≤ (1 - p.attackCoeff) * M :=
      mul_le_mul_of_nonneg_left heM (sub_nonneg.mpr ha1)
    have h4 : p.attackCoeff * ((|x| - p.linearThreshold) / p.ratio) ≤ p.attackCoeff * M :=
      mul_le_mul_of_nonneg_left htM ha0.le
    constructor <;> nlinarith
  · simp only [sampleStep, compressSample_release p e x (not_lt.mp h)]
    refine ⟨le_max_right _ _, max_le ?_ (le_trans he0 heM)⟩
    have : 0 ≤ p.releaseCoeff * e := mul_nonneg hr0.le he0
    linarith

theorem processChannel_envelope_bounds (p : Snapshot K) (M : K)
    (hratio : 1 ≤ p.ratio) (ha0 : 0 < p.attackCoeff) (ha1 : p.attackCoeff ≤ 1)
    (hr0 : 0 < p.releaseCoeff) (xs : List K) (e : K) (he0 : 0 ≤ e) (heM : e ≤ M)
    (hx : ∀ x ∈ xs, |x| > p.linearThreshold → (|x| - p.linearThreshold) / p.ratio ≤ M) :
    0 ≤ (processChannel p e xs).1 ∧ (processChannel p e xs).1 ≤ M := by
  induction xs generalizing e with
  | nil => exact ⟨he0, heM⟩
  | cons x xs ih =>
      obtain ⟨h0, hM⟩ := sampleStep_envelope_bounds p e x M hratio ha0 ha1 hr0 he0 heM
        (hx x (List.mem_cons_self x xs))
      exact ih (sampleStep p e x).1 h0 hM (fun y hy => hx y (List.mem_cons_of_mem x hy))

theorem processChannels_envelope_bounds (p : Snapshot K) (M : K)
    (hratio : 1 ≤ p.ratio) (ha0 : 0 < p.attackCoeff) (ha1 : p.attackCoeff ≤ 1)
    (hr0 : 0 < p.releaseCoeff) (b : AudioBuffer K) (e : K) (he0 : 0 ≤ e) (heM : e ≤ M)
    (hx : ∀ ch ∈ b, ∀ x ∈ ch, |x| > p.linearThreshold →
      (|x| - p.linearThreshold) / p.ratio ≤ M) :
    0 ≤ (processChannels p e b).1 ∧ (processChannels p e b).1 ≤ M := by
  induction b generalizing e with
  | nil => exact ⟨he0, heM⟩
  | cons c rest ih =>
      obtain ⟨h0, hM⟩ := processChannel_envelope_bounds p M hratio ha0 ha1 hr0 c e he0 heM
        (hx c (List.mem_cons_self c rest))
      exact ih (processChannel p e c).1 h0 hM (fun ch hch => hx ch (List.mem_cons_of_mem c hch))

theorem envelopeAfterBlocks_bounds (M : K) (bs : List (Snapshot K × AudioBuffer K)) (e : K)
    (he0 : 0 ≤ e) (heM : e ≤ M)
    (hp : ∀ pb ∈ bs, 1 ≤ pb.1.ratio ∧ 0 < pb.1.attackCoeff ∧ pb.1.attackCoeff ≤ 1 ∧
      0 < pb.1.releaseCoeff)
    (hx : ∀ pb ∈ bs, ∀ ch ∈ pb.2, ∀ x ∈ ch, |x| > pb.1.linearThreshold →
      (|x| - pb.1.linearThreshold) / pb.1.ratio ≤ M) :
    0 ≤ envelopeAfterBlocks e bs ∧ envelopeAfterBlocks e bs ≤ M := by
  induction bs generalizing e with
  | nil => exact ⟨he0, heM⟩
  | cons pb rest ih =>
      obtain ⟨p, b⟩ := pb
      obtain ⟨hratio, ha0, ha1, hr0⟩ := hp (p, b) (List.mem_cons_self _ _)
      obtain ⟨h0, hM⟩ := processChannels_envelope_bounds p M hratio ha0 ha1 hr0 b e he0 heM
        (hx (p, b) (List.mem_cons_self _ _))
      exact ih (processChannels p e b).1 h0 hM
        (fun q hq => hp q (List.mem_cons_of_mem _ hq))
        (fun q hq => hx q (List.mem_cons_of_mem _ hq))

theorem getNumSamples_replicate_nil {F : Type} (c : ℕ) :
    AudioBuffer.getNumSamples (List.replicate c ([] : List F)) = 0 := by
  cases c <;> rfl

end BlockLemmas

/-! ## The visualization buffers -/

section Visualization

variable {K : Type} [LinearOrderedField K]

/-- C11. An all-zero block stays all-zero.  On an instance prepared with block size `N`
whose envelope is 0, `processBlock` on a block of `c ≥ 1` channels of `N` zeros returns,
leaves the block all-zero, leaves the output visualization buffer one channel of `N`
zeros (the input one too) and leaves the envelope at 0: for every non-negative linear
threshold, and so for every setting of the five parameters. -/
theorem processBlock_all_zero :
    (∀ (p : Snapshot K) (st0 : Processor K) (sampleRate : K) (N c : ℕ)
        (freshIn freshOut : ℕ → ℕ → K),
      0 ≤ p.linearThreshold → st0.envelope = 0 → 0 < c →
      ∃ st1 : Processor K,
        processBlockWith p (prepareToPlay st0 sampleRate N freshIn freshOut)
            (List.replicate c (List.replicate N 0))
          = some (st1, List.replicate c (List.replicate N 0)) ∧
        st1.outputBuffer = [List.replicate N 0] ∧
        st1.inputBuffer = [List.replicate N 0] ∧
        st1.envelope = 0) ∧
    (∀ (apvts : Parameters) (st0 : Processor ℝ) (sampleRate : ℝ) (N c : ℕ)
        (freshIn freshOut : ℕ → ℕ → ℝ),
      st0.envelope = 0 → 0 < c →
      ∃ st1 : Processor ℝ,
        processBlock apvts sampleRate (prepareToPlay st0 sampleRate N freshIn freshOut)
            (List.replicate c (List.replicate N 0))
          = some (st1, List.replicate c (List.replicate N 0)) ∧
        st1.outputBuffer = [List.replicate N 0] ∧
        st1.inputBuffer = [List.replicate N 0] ∧
        st1.envelope = 0) := by
  have core : ∀ {F : Type} [LinearOrderedField F] (p : Snapshot F) (st0 : Processor F)
      (sampleRate : F) (N c : ℕ) (freshIn freshOut : ℕ → ℕ → F),
      0 ≤ p.linearThreshold → st0.envelope = 0 → 0 < c →
      ∃ st1 : Processor F,
        processBlockWith p (prepareToPlay st0 sampleRate N freshIn freshOut)
            (List.replicate c (List.replicate N 0))
          = some (st1, List.replicate c (List.replicate N 0)) ∧
        st1.outputBuffer = [List.replicate N 0] ∧
        st1.inputBuffer = [List.replicate N 0] ∧
        st1.envelope = 0 := by
    intro F _ p st0 sampleRate N c freshIn freshOut hT he hc
    obtain ⟨vi, hvi, hli⟩ := setSize_mono st0.inputBuffer N freshIn
    obtain ⟨vo, hvo, hlo⟩ := setSize_mono st0.outputBuffer N freshOut
    obtain ⟨k, rfl⟩ : ∃ k, c = k + 1 := ⟨c - 1, by omega⟩
    have hclear := clearUnusedChannels_zeros (K := F) st0.totalNumInputChannels
      st0.totalNumOutputChannels 0 (k + 1) N
    rw [List.replicate_succ] at hclear
    have hcall := processBlockWith_of_clear p (prepareToPlay st0 sampleRate N freshIn freshOut)
      (List.replicate (k + 1) (List.replicate N 0)) (List.replicate N 0)
      (List.replicate k (List.replicate N 0)) vi vo
      (by rw [List.replicate_succ]; exact hclear) hvi hvo (by simp [hli]) (by simp [hlo])
    have henv : (prepareToPlay st0 sampleRate N freshIn freshOut).envelope = 0 := he
    have hz := processChannels_zeros p hT (k + 1) N
    rw [List.replicate_succ] at hz
    have hz1 := processChannel_zeros p hT N
    rw [henv, hz, hz1] at hcall
    have hdi : vi.drop N = [] := List.drop_eq_nil_of_le hli.le
    have hdo : vo.drop N = [] := List.drop_eq_nil_of_le hlo.le
    simp only [List.length_replicate, hdi, hdo, List.append_nil] at hcall
    exact ⟨_, by rw [List.replicate_succ]; exact hcall, rfl, rfl, rfl⟩
  refine ⟨core, ?_⟩
  intro apvts st0 sampleRate N c freshIn freshOut he hc
  exact core (snapshot apvts sampleRate) st0 sampleRate N c freshIn freshOut
    (decibelsToGain_pos _).le he hc

/-- Witness for C11 over `ℚ`: the constructed processor, prepared for blocks of 3
samples, fed a stereo block of zeros. -/
theorem processBlock_all_zero_witness :
    ∃ st1 : Processor ℚ,
      processBlockWith ⟨2, 1 / 2, 4, 1 / 2, 1 / 4⟩
          (prepareToPlay Squeeze1AudioProcessor 44100 3 (fun _ _ => 7) (fun _ _ => 9))
          (List.replicate 2 (List.replicate 3 0))
        = some (st1, List.replicate 2 (List.replicate 3 0)) ∧
      st1.outputBuffer = [List.replicate 3 0] ∧
      st1.inputBuffer = [List.replicate 3 0] ∧
      st1.envelope = 0 :=
  (processBlock_all_zero (K := ℚ)).1 ⟨2, 1 / 2, 4, 1 / 2, 1 / 4⟩ Squeeze1AudioProcessor 44100 3 2
    (fun _ _ => 7) (fun _ _ => 9) (by norm_num) rfl (by norm_num)

/-- C13. Block-size change: whatever the visualization buffers held before,
`prepareToPlay (sampleRate, n)` leaves the input and the output visualization buffer
with one channel of exactly `n` samples each. -/
theorem prepareToPlay_resizes {F : Type} (st : Processor F) (sampleRate : F) (n : ℕ)
    (freshIn freshOut : ℕ → ℕ → F) :
    (∃ v : List F, (prepareToPlay st sampleRate n freshIn freshOut).inputBuffer = [v]
      ∧ v.length = n) ∧
    (∃ v : List F, (prepareToPlay st sampleRate n freshIn freshOut).outputBuffer = [v]
      ∧ v.length = n) ∧
    (prepareToPlay st sampleRate n freshIn freshOut).inputBuffer.getNumChannels = 1 ∧
    (prepareToPlay st sampleRate n freshIn freshOut).inputBuffer.getNumSamples = n ∧
    (prepareToPlay st sampleRate n freshIn freshOut).outputBuffer.getNumChannels = 1 ∧
    (prepareToPlay st sampleRate n freshIn freshOut).outputBuffer.getNumSamples = n := by
  obtain ⟨vi, hvi, hli⟩ := setSize_mono st.inputBuffer n freshIn
  obtain ⟨vo, hvo, hlo⟩ := setSize_mono st.outputBuffer n freshOut
  have hi : (prepareToPlay st sampleRate n freshIn freshOut).inputBuffer = [vi] := hvi
  have ho : (prepareToPlay st sampleRate n freshIn freshOut).outputBuffer = [vo] := hvo
  refine ⟨⟨vi, hi, hli⟩, ⟨vo, ho, hlo⟩, ?_, ?_, ?_, ?_⟩
  · rw [hi]; rfl
  · rw [hi]; exact hli
  · rw [ho]; rfl
  · rw [ho]; exact hlo

/-- C14. A zero-length block is a no-op: for every channel count `c`, every parameter
snapshot and every processor state, `processBlock` on `c` channels of no samples
returns the state unchanged (envelope, both visualization buffers) and the block
unchanged. -/
theorem processBlock_zero_length :
    (∀ (p : Snapshot K) (st : Processor K) (c : ℕ),
      processBlockWith p st (List.replicate c []) = some (st, List.replicate c [])) ∧
    (∀ (apvts : Parameters) (sampleRate : ℝ) (st : Processor ℝ) (c : ℕ),
      processBlock apvts sampleRate st (List.replicate c [])
        = some (st, List.replicate c [])) := by
  have core : ∀ {F : Type} [LinearOrderedField F] (p : Snapshot F) (st : Processor F) (c : ℕ),
      processBlockWith p st (List.replicate c []) = some (st, List.replicate c []) := by
    intro F _ p st c
    have hclear := clearUnusedChannels_zeros (K := F) st.totalNumInputChannels
      st.totalNumOutputChannels 0 c 0
    simp only [List.replicate_zero] at hclear
    simp only [processBlockWith, hclear, getNumSamples_replicate_nil, AudioBuffer.copyFrom,
      if_true, processChannels_empty]
  exact ⟨core, fun apvts sampleRate st c => core (snapshot apvts sampleRate) st c⟩

/-- C12. Visualization snapshots.  On an instance prepared with block size `N` and with
an input channel on the bus, `processBlock` on a block whose first channel `c0` has `N`
samples returns; afterwards the input visualization buffer is exactly `c0` as it came
in, the output visualization buffer is exactly the first channel of the processed
block, and sample `i` of it is the step applied to `c0[i]` from the envelope reached
after the first `i` samples of `c0`. -/
theorem visualization_snapshots :
    (∀ (p : Snapshot K) (st0 : Processor K) (sampleRate : K) (N : ℕ)
        (freshIn freshOut : ℕ → ℕ → K) (c0 : List K) (rest : AudioBuffer K),
      c0.length = N → 0 < st0.totalNumInputChannels →
      ∃ (st1 : Processor K) (out0 : List K) (outRest : AudioBuffer K),
        processBlockWith p (prepareToPlay st0 sampleRate N freshIn freshOut) (c0 :: rest)
          = some (st1, out0 :: outRest) ∧
        st1.inputBuffer = [c0] ∧
        st1.outputBuffer = [out0] ∧
        out0.length = N ∧
        ∀ i : ℕ, out0[i]? = c0[i]?.map
          (fun x => (sampleStep p (processChannel p st0.envelope (c0.take i)).1 x).2)) ∧
    (∀ (apvts : Parameters) (st0 : Processor ℝ) (sampleRate : ℝ) (N : ℕ)
        (freshIn freshOut : ℕ → ℕ → ℝ) (c0 : List ℝ) (rest : AudioBuffer ℝ),
      c0.length = N → 0 < st0.totalNumInputChannels →
      ∃ (st1 : Processor ℝ) (out0 : List ℝ) (outRest : AudioBuffer ℝ),
        processBlock apvts sampleRate (prepareToPlay st0 sampleRate N freshIn freshOut)
            (c0 :: rest)
          = some (st1, out0 :: outRest) ∧
        st1.inputBuffer = [c0] ∧
        st1.outputBuffer = [out0] ∧
        out0.length = N ∧
        ∀ i : ℕ, out0[i]? = c0[i]?.map
          (fun x => (sampleStep (snapshot apvts sampleRate)
            (processChannel (snapshot apvts sampleRate) st0.envelope (c0.take i)).1 x).2)) := by
  have core : ∀ {F : Type} [LinearOrderedField F] (p : Snapshot F) (st0 : Processor F)
      (sampleRate : F) (N : ℕ) (freshIn freshOut : ℕ → ℕ → F) (c0 : List F)
      (rest : AudioBuffer F),
      c0.length = N → 0 < st0.totalNumInputChannels →
      ∃ (st1 : Processor F) (out0 : List F) (outRest : AudioBuffer F),
        processBlockWith p (prepareToPlay st0 sampleRate N freshIn freshOut) (c0 :: rest)
          = some (st1, out0 :: outRest) ∧
        st1.inputBuffer = [c0] ∧
        st1.outputBuffer = [out0] ∧
        out0.length = N ∧
        ∀ i : ℕ, out0[i]? = c0[i]?.map
          (fun x => (sampleStep p (processChannel p st0.envelope (c0.take i)).1 x).2) := by
    intro F _ p st0 sampleRate N freshIn freshOut c0 rest hN hin
    obtain ⟨vi, hvi, hli⟩ := setSize_mono st0.inputBuffer N freshIn
    obtain ⟨vo, hvo, hlo⟩ := setSize_mono st0.outputBuffer N freshOut
    have hcall := processBlockWith_of_clear p (prepareToPlay st0 sampleRate N freshIn freshOut)
      (c0 :: rest) c0
      (clearUnusedChannels st0.totalNumInputChannels st0.totalNumOutputChannels 1 rest) vi vo
      (clearUnusedChannels_cons_pos _ _ hin c0 rest) hvi hvo (by omega) (by omega)
    have henv : (prepareToPlay st0 sampleRate N freshIn freshOut).envelope = st0.envelope := rfl
    have hdi : vi.drop c0.length = [] := List.drop_eq_nil_of_le (by omega)
    have hdo : vo.drop c0.length = [] := List.drop_eq_nil_of_le (by omega)
    rw [henv, hdi, hdo, List.append_nil, List.append_nil] at hcall
    refine ⟨_, (processChannel p st0.envelope c0).2, _, hcall, rfl, rfl, ?_, ?_⟩
    · rw [processChannel_length, hN]
    · intro i
      exact processChannel_getElem_opt p st0.envelope c0 i
  refine ⟨core, ?_⟩
  intro apvts st0 sampleRate N freshIn freshOut c0 rest hN hin
  exact core (snapshot apvts sampleRate) st0 sampleRate N freshIn freshOut c0 rest hN hin

/-- Witness for C12 over `ℚ`: the constructed processor, prepared for blocks of 2
samples, fed the stereo block `[[1, -1/4], [1/4, -1]]`. -/
theorem visualization_snapshots_witness :
    ∃ (st1 : Processor ℚ) (out0 : List ℚ) (outRest : AudioBuffer ℚ),
      processBlockWith ⟨2, 1 / 2, 1, 1 / 2, 1 / 2⟩
          (prepareToPlay Squeeze1AudioProcessor 44100 2 (fun _ _ => 7) (fun _ _ => 9))
          ([1, -(1 / 4)] :: [[1 / 4, -1]])
        = some (st1, out0 :: outRest) ∧
      st1.inputBuffer = [[1, -(1 / 4)]] ∧
      st1.outputBuffer = [out0] ∧
      out0.length = 2 ∧
      ∀ i : ℕ, out0[i]? = ([1, -(1 / 4)] : List ℚ)[i]?.map
        (fun x => (sampleStep ⟨2, 1 / 2, 1, 1 / 2, 1 / 2⟩
          (processChannel ⟨2, 1 / 2, 1, 1 / 2, 1 / 2⟩ (Squeeze1AudioProcessor (K := ℚ)).envelope
            (([1, -(1 / 4)] : List ℚ).take i)).1 x).2) :=
  (visualization_snapshots (K := ℚ)).1 ⟨2, 1 / 2, 1, 1 / 2, 1 / 2⟩ Squeeze1AudioProcessor 44100 2
    (fun _ _ => 7) (fun _ _ => 9) [1, -(1 / 4)] [[1 / 4, -1]] rfl (by decide)

end Visualization

/-! ## The envelope across samples, channels and blocks -/

section Envelope

variable {K : Type} [LinearOrderedField K]

/-- C15. Envelope non-negativity and bound.  Start from the constructor's envelope, 0.
Let `bs` be any sequence of blocks, each with its own parameter snapshot satisfying
`T > 0`, `ratio ≥ 1` and attack and release coefficients in `(0, 1]`, and let `M ≥ 0` be
at least `(|x| - T) / ratio` for every above-threshold sample met (so `M` may be the
largest such value seen so far, or 0 when there was none).  Then the envelope after
the blocks is `≥ 0` and `≤ M`; and so is the envelope at any point inside a following
block, after its first channels `cs` and the first samples `xs` of the next channel
(the hypotheses then range over the blocks `bs` and the part `cs ++ [xs]` processed so
far). -/
theorem envelope_nonneg_and_bounded :
    (∀ (bs : List (Snapshot K × AudioBuffer K)) (M : K),
      (∀ pb ∈ bs, 0 < pb.1.linearThreshold ∧ 1 ≤ pb.1.ratio ∧
        (0 < pb.1.attackCoeff ∧ pb.1.attackCoeff ≤ 1) ∧
        (0 < pb.1.releaseCoeff ∧ pb.1.releaseCoeff ≤ 1)) →
      0 ≤ M →
      (∀ pb ∈ bs, ∀ ch ∈ pb.2, ∀ x ∈ ch, |x| > pb.1.linearThreshold →
        (|x| - pb.1.linearThreshold) / pb.1.ratio ≤ M) →
      0 ≤ envelopeAfterBlocks (Squeeze1AudioProcessor (K := K)).envelope bs ∧
      envelopeAfterBlocks (Squeeze1AudioProcessor (K := K)).envelope bs ≤ M) ∧
    (∀ (bs : List (Snapshot K × AudioBuffer K)) (p : Snapshot K) (cs : AudioBuffer K)
        (xs : List K) (M : K),
      (∀ pb ∈ bs ++ [(p, cs ++ [xs])], 0 < pb.1.linearThreshold ∧ 1 ≤ pb.1.ratio ∧
        (0 < pb.1.attackCoeff ∧ pb.1.attackCoeff ≤ 1) ∧
        (0 < pb.1.releaseCoeff ∧ pb.1.releaseCoeff ≤ 1)) →
      0 ≤ M →
      (∀ pb ∈ bs ++ [(p, cs ++ [xs])], ∀ ch ∈ pb.2, ∀ x ∈ ch, |x| > pb.1.linearThreshold →
        (|x| - pb.1.linearThreshold) / pb.1.ratio ≤ M) →
      0 ≤ (processChannel p (processChannels p
            (envelopeAfterBlocks (Squeeze1AudioProcessor (K := K)).envelope bs) cs).1 xs).1 ∧
      (processChannel p (processChannels p
            (envelopeAfterBlocks (Squeeze1AudioProcessor (K := K)).envelope bs) cs).1 xs).1
        ≤ M) := by
  have h0 : (Squeeze1AudioProcessor (K := K)).envelope = 0 := rfl
  constructor
  · intro bs M hp hM0 hx
    rw [h0]
    exact envelopeAfterBlocks_bounds M bs 0 le_rfl hM0
      (fun pb hpb => ⟨(hp pb hpb).2.1, (hp pb hpb).2.2.1.1, (hp pb hpb).2.2.1.2,
        (hp pb hpb).2.2.2.1⟩) hx
  · intro bs p cs xs M hp hM0 hx
    rw [h0]
    have hl : ∀ pb ∈ bs, pb ∈ bs ++ [(p, cs ++ [xs])] :=
      fun pb hpb => List.mem_append_left _ hpb
    have hlast : (p, cs ++ [xs]) ∈ bs ++ [(p, cs ++ [xs])] :=
      List.mem_append_right _ (List.mem_singleton_self _)
    obtain ⟨hb0, hbM⟩ := envelopeAfterBlocks_bounds M bs 0 le_rfl hM0
      (fun pb hpb => ⟨(hp pb (hl pb hpb)).2.1, (hp pb (hl pb hpb)).2.2.1.1,
        (hp pb (hl pb hpb)).2.2.1.2, (hp pb (hl pb hpb)).2.2.2.1⟩)
      (fun pb hpb => hx pb (hl pb hpb))
    obtain ⟨-, hratio, ⟨ha0, ha1⟩, ⟨hr0, -⟩⟩ := hp (p, cs ++ [xs]) hlast
    have hxp := hx (p, cs ++ [xs]) hlast
    obtain ⟨hc0, hcM⟩ := processChannels_envelope_bounds p M hratio ha0 ha1 hr0 cs _ hb0 hbM
      (fun ch hch => hxp ch (List.mem_append_left _ hch))
    exact processChannel_envelope_bounds p M hratio ha0 ha1 hr0 xs _ hc0 hcM
      (hxp xs (List.mem_append_right _ (List.mem_singleton_self _)))

/-- Witness for C15 over `ℚ`: two stereo blocks with different parameters, the targets
met being `(1 - 1/2) / 4 = 1/8` and `(3/2 - 1/4) / 5 = 1/4`, so `M = 1/4`. -/
theorem envelope_nonneg_and_bounded_witness :
    0 ≤ envelopeAfterBlocks (Squeeze1AudioProcessor (K := ℚ)).envelope
        [(⟨2, 1 / 2, 4, 1 / 2, 1 / 4⟩, [[1, 0], [0, 0]]),
         (⟨1, 1 / 4, 5, 1, 1 / 2⟩, [[0, 0], [-(3 / 2), 0]])] ∧
    envelopeAfterBlocks (Squeeze1AudioProcessor (K := ℚ)).envelope
        [(⟨2, 1 / 2, 4, 1 / 2, 1 / 4⟩, [[1, 0], [0, 0]]),
         (⟨1, 1 / 4, 5, 1, 1 / 2⟩, [[0, 0], [-(3 / 2), 0]])] ≤ 1 / 4 := by
  refine (envelope_nonneg_and_bounded (K := ℚ)).1
    [(⟨2, 1 / 2, 4, 1 / 2, 1 / 4⟩, [[1, 0], [0, 0]]),
     (⟨1, 1 / 4, 5, 1, 1 / 2⟩, [[0, 0], [-(3 / 2), 0]])] (1 / 4) ?_ (by norm_num) ?_
  · intro pb hpb
    simp only [List.mem_cons, List.mem_singleton, List.not_mem_nil, or_false] at hpb
    rcases hpb with rfl | rfl <;> norm_num
  · intro pb hpb ch hch x hx
    simp only [List.mem_cons, List.mem_singleton, List.not_mem_nil, or_false] at hpb
    rcases hpb with rfl | rfl
    · simp only [List.mem_cons, List.mem_singleton, List.not_mem_nil, or_false] at hch
      rcases hch with rfl | rfl
      · simp only [List.mem_cons, List.mem_singleton, List.not_mem_nil, or_false] at hx
        rcases hx with rfl | rfl <;> norm_num
      · simp only [List.mem_cons, List.mem_singleton, List.not_mem_nil, or_false] at hx
        rcases hx with rfl | rfl <;> norm_num
    · simp only [List.mem_cons, List.mem_singleton, List.not_mem_nil, or_false] at hch
      rcases hch with rfl | rfl
      · simp only [List.mem_cons, List.mem_singleton, List.not_mem_nil, or_false] at hx
        rcases hx with rfl | rfl <;> norm_num
      · simp only [List.mem_cons, List.mem_singleton, List.not_mem_nil, or_false] at hx
        rcases hx with rfl | rfl <;> norm_num [abs_of_pos]

/-- C16. One envelope, threaded channel-major.  The two loops over a block leave the
same envelope and write the same samples, channel lengths kept, as the per-sample step
run over the single sequence `c0 ++ c1 ++ …`; the first sample of the second channel
is stepped from the envelope the first channel left.  The same holds of a whole
`processBlock` call that clears no channel (`totalNumOutputChannels ≤
totalNumInputChannels`) on a processor whose one-channel visualization buffers are long
enough.  For `T = 1/2`, ratio 1, `a = 1/2`, `g = 1` and the block `[[1], [1]]` from
envelope 0, channel 1 gets `7/8`, not the `3/4` that a start from envelope 0 gives. -/
theorem shared_envelope_channel_major :
    (∀ (p : Snapshot K) (e : K) (b : AudioBuffer K),
      (processChannels p e b).1 = (processChannel p e b.flatten).1 ∧
      (processChannels p e b).2.flatten = (processChannel p e b.flatten).2 ∧
      (processChannels p e b).2.map List.length = b.map List.length) ∧
    (∀ (p : Snapshot K) (e x : K) (c0 c1 : List K) (rest : AudioBuffer K),
      ∃ (out0 out1 : List K) (outRest : AudioBuffer K),
        (processChannels p e (c0 :: (x :: c1) :: rest)).2
          = out0 :: ((sampleStep p (processChannel p e c0).1 x).2 :: out1) :: outRest) ∧
    (∀ (p : Snapshot K) (st : Processor K) (c0 : List K) (rest : AudioBuffer K)
        (vi vo : List K),
      st.totalNumOutputChannels ≤ st.totalNumInputChannels →
      st.inputBuffer = [vi] → st.outputBuffer = [vo] →
      c0.length ≤ vi.length → c0.length ≤ vo.length →
      ∃ (st1 : Processor K) (out : AudioBuffer K),
        processBlockWith p st (c0 :: rest) = some (st1, out) ∧
        st1.envelope = (processChannel p st.envelope (c0 :: rest).flatten).1 ∧
        out.flatten = (processChannel p st.envelope (c0 :: rest).flatten).2 ∧
        out.map List.length = (c0 :: rest).map List.length) ∧
    (processChannels (K := ℚ) ⟨1, 1 / 2, 1, 1 / 2, 1 / 2⟩ 0 [[1], [1]] = (3 / 8, [[3 / 4], [7 / 8]]) ∧
      (sampleStep (K := ℚ) ⟨1, 1 / 2, 1, 1 / 2, 1 / 2⟩ 0 1).2 = 3 / 4 ∧
      (sampleStep (K := ℚ) ⟨1, 1 / 2, 1, 1 / 2, 1 / 2⟩ (1 / 4) 1).2 = 7 / 8) := by
  refine ⟨processChannels_flatten, ?_, ?_, ?_⟩
  · intro p e x c0 c1 rest
    refine ⟨(processChannel p e c0).2,
      (processChannel p (sampleStep p (processChannel p e c0).1 x).1 c1).2,
      (processChannels p (processChannel p (sampleStep p (processChannel p e c0).1 x).1 c1).1
        rest).2, ?_⟩
    simp only [processChannels, processChannel]
  · intro p st c0 rest vi vo hle hvi hvo hli hlo
    have hcall := processBlockWith_of_clear p st (c0 :: rest) c0 rest vi vo
      (clearUnusedChannels_of_le _ _ hle 0 (c0 :: rest)) hvi hvo hli hlo
    obtain ⟨h1, h2, h3⟩ := processChannels_flatten p st.envelope (c0 :: rest)
    exact ⟨_, _, hcall, h1, h2, h3⟩
  · refine ⟨?_, ?_, ?_⟩
    · norm_num [processChannels, processChannel, sampleStep, compressSample]
    · norm_num [sampleStep, compressSample]
    · norm_num [sampleStep, compressSample]

/-- Witness for C16 over `ℚ`: the constructed (stereo) processor with visualization
buffers of two samples, fed the stereo block `[[1], [1]]`. -/
theorem shared_envelope_channel_major_witness :
    ∃ (st1 : Processor ℚ) (out : AudioBuffer ℚ),
      processBlockWith ⟨1, 1 / 2, 1, 1 / 2, 1 / 2⟩
          { (Squeeze1AudioProcessor (K := ℚ)) with inputBuffer := [[7, 7]], outputBuffer := [[9, 9]] }
          ([1] :: [[1]]) = some (st1, out) ∧
      st1.envelope = (processChannel ⟨1, 1 / 2, 1, 1 / 2, 1 / 2⟩
        (Squeeze1AudioProcessor (K := ℚ)).envelope ([1] :: [[1]]).flatten).1 ∧
      out.flatten = (processChannel ⟨1, 1 / 2, 1, 1 / 2, 1 / 2⟩
        (Squeeze1AudioProcessor (K := ℚ)).envelope ([1] :: [[1]]).flatten).2 ∧
      out.map List.length = ([1] :: [[(1 : ℚ)]]).map List.length :=
  (shared_envelope_channel_major (K := ℚ)).2.2.1 ⟨1, 1 / 2, 1, 1 / 2, 1 / 2⟩
    { (Squeeze1AudioProcessor (K := ℚ)) with inputBuffer := [[7, 7]], outputBuffer := [[9, 9]] }
    [1] [[1]] [7, 7] [9, 9] (by decide) rfl rfl (by decide) (by decide)

end Envelope

/-! ## Ratio 1 and the output magnitude -/

section Magnitude

variable {K : Type} [LinearOrderedField K]

end Magnitude

end Squeeze1
